import Mathlib

/-!
Shallow embedding of the frappe-api request binding and validation pipeline
(src/frappeapi: datastructures.py, models.py, utils.py, routing.py,
exception_handler.py), together with theorems settling the specification's
claims about it.
-/

/-- Location path segment of a validation issue: a string key or an integer
index (e.g. the character position of a JSON decode error). -/
inductive Seg where
  | s (v : String)
  | i (n : Int)
  deriving DecidableEq

/-- Location path of a validation issue, e.g. `[s "query", s "n"]`. -/
abbrev Loc := List Seg

/-- Python values flowing through the pipeline: request parameter values,
parsed JSON bodies, defaults, and handler return values. -/
inductive Value where
  | vNone
  | vStr (s : String)
  | vInt (n : Int)
  | vList (xs : List Value)
  | vDict (xs : List (String × Value))

mutual

/-- Decidable equality for `Value` (written by hand because the automatic
deriving handler does not support the nested `List` occurrences). -/
def Value.decEq : (a b : Value) → Decidable (a = b)
  | .vNone, .vNone => isTrue rfl
  | .vNone, .vStr _ | .vNone, .vInt _ | .vNone, .vList _ | .vNone, .vDict _ =>
      isFalse (fun h => Value.noConfusion h)
  | .vStr s, .vStr t =>
      if h : s = t then isTrue (by rw [h]) else isFalse (fun he => h (Value.vStr.inj he))
  | .vStr _, .vNone | .vStr _, .vInt _ | .vStr _, .vList _ | .vStr _, .vDict _ =>
      isFalse (fun h => Value.noConfusion h)
  | .vInt m, .vInt n =>
      if h : m = n then isTrue (by rw [h]) else isFalse (fun he => h (Value.vInt.inj he))
  | .vInt _, .vNone | .vInt _, .vStr _ | .vInt _, .vList _ | .vInt _, .vDict _ =>
      isFalse (fun h => Value.noConfusion h)
  | .vList xs, .vList ys =>
      match Value.decEqList xs ys with
      | isTrue h => isTrue (by rw [h])
      | isFalse h => isFalse (fun he => h (Value.vList.inj he))
  | .vList _, .vNone | .vList _, .vStr _ | .vList _, .vInt _ | .vList _, .vDict _ =>
      isFalse (fun h => Value.noConfusion h)
  | .vDict xs, .vDict ys =>
      match Value.decEqPairs xs ys with
      | isTrue h => isTrue (by rw [h])
      | isFalse h => isFalse (fun he => h (Value.vDict.inj he))
  | .vDict _, .vNone | .vDict _, .vStr _ | .vDict _, .vInt _ | .vDict _, .vList _ =>
      isFalse (fun h => Value.noConfusion h)

def Value.decEqList : (a b : List Value) → Decidable (a = b)
  | [], [] => isTrue rfl
  | [], _ :: _ => isFalse (fun h => List.noConfusion h)
  | _ :: _, [] => isFalse (fun h => List.noConfusion h)
  | x :: xs, y :: ys =>
      match Value.decEq x y with
      | isFalse h => isFalse (fun he => h (List.cons.inj he).1)
      | isTrue h1 =>
          match Value.decEqList xs ys with
          | isTrue h2 => isTrue (by rw [h1, h2])
          | isFalse h => isFalse (fun he => h (List.cons.inj he).2)

def Value.decEqPairs : (a b : List (String × Value)) → Decidable (a = b)
  | [], [] => isTrue rfl
  | [], _ :: _ => isFalse (fun h => List.noConfusion h)
  | _ :: _, [] => isFalse (fun h => List.noConfusion h)
  | (k, x) :: xs, (l, y) :: ys =>
      if hk : k = l then
        match Value.decEq x y with
        | isFalse h => isFalse (fun he => h (congrArg Prod.snd (List.cons.inj he).1))
        | isTrue h1 =>
            match Value.decEqPairs xs ys with
            | isTrue h2 => isTrue (by rw [hk, h1, h2])
            | isFalse h => isFalse (fun he => h (List.cons.inj he).2)
      else isFalse (fun he => hk (congrArg Prod.fst (List.cons.inj he).1))

end

instance : DecidableEq Value := Value.decEq

/-- One structured validation failure, shaped like a pydantic v2 error dict:
`type`, `loc`, `msg`, `input`, and an optional `ctx`. -/
structure ErrorItem where
  etype : String
  loc : Loc
  msg : String
  input : Value
  ctx : Option Value
  deriving DecidableEq

/-- Python association lookup by string key (first matching pair), used to
model `dict.get(key, None)` on dictionaries with unique keys and `.get` on
plain mappings. -/
def assocGet {α : Type} : List (String × α) → String → Option α
  | [], _ => none
  | (a, b) :: d, k => if k = a then some b else assocGet d k

/-- Python dict assignment `d[k] = v`: overwrite the value in place if the key
exists, else append the pair (insertion order preserved). -/
def dictInsert {α : Type} (d : List (String × α)) (k : String) (v : α) :
    List (String × α) :=
  if d.any (fun p => decide (p.1 = k)) then
    d.map (fun p => (p.1, if p.1 = k then v else p.2))
  else
    d ++ [(k, v)]

/-- Python dict comprehension over an ordered pair list
(`self._dict = \x7bk: v for k, v in _items\x7d` in `ImmutableMultiDict.__init__`):
first-occurrence key order, last-occurrence value. -/
def buildDict {α : Type} (pairs : List (String × α)) : List (String × α) :=
  pairs.foldl (fun d p => dictInsert d p.1 p.2) []

/-- `frappeapi.datastructures.ImmutableMultiDict`, specialised to string keys
and values as used for query parameters: it keeps the ordered pair list
`_list`, and the deduplicated `_dict` is derived by `buildDict`. -/
structure ImmutableMultiDict where
  pairs : List (String × String)
  deriving DecidableEq

/-- `ImmutableMultiDict.getlist`: all values whose key equals `key`, in
original insertion order. -/
def ImmutableMultiDict.getlist (m : ImmutableMultiDict) (key : String) :
    List String :=
  (m.pairs.filter (fun p => decide (p.1 = key))).map Prod.snd

/-- `ImmutableMultiDict.__getitem__` / `.get(key, None)`: single-value lookup
through the derived `_dict`. -/
def ImmutableMultiDict.get (m : ImmutableMultiDict) (key : String) :
    Option String :=
  assocGet (buildDict m.pairs) key

theorem assocGet_map_replace_ne {α : Type} (d : List (String × α)) (k k' : String) (v : α)
    (h : k ≠ k') :
    assocGet (d.map (fun p => (p.1, if p.1 = k' then v else p.2))) k = assocGet d k := by
  induction d with
  | nil => rfl
  | cons p ps ih =>
    obtain ⟨a, b⟩ := p
    by_cases hp : a = k'
    · subst hp
      have hk : k ≠ a := h
      simp [assocGet, hk, ih]
    · by_cases hk : k = a
      · subst hk
        simp [assocGet, hp]
      · simp [assocGet, hp, hk, ih]

theorem assocGet_map_replace_eq {α : Type} (d : List (String × α)) (k : String) (v : α)
    (h : d.any (fun p => decide (p.1 = k)) = true) :
    assocGet (d.map (fun p => (p.1, if p.1 = k then v else p.2))) k = some v := by
  induction d with
  | nil => simp at h
  | cons p ps ih =>
    obtain ⟨a, b⟩ := p
    by_cases hp : a = k
    · subst hp
      simp [assocGet]
    · have h' : ps.any (fun p => decide (p.1 = k)) = true := by
        simpa [hp] using h
      have hk : k ≠ a := fun hh => hp hh.symm
      simp [assocGet, hp, hk, ih h']

theorem assocGet_append {α : Type} (d e : List (String × α)) (k : String) :
    assocGet (d ++ e) k = ((assocGet d k).or (assocGet e k)) := by
  induction d with
  | nil => simp [assocGet]
  | cons p ps ih =>
    obtain ⟨a, b⟩ := p
    by_cases hk : k = a
    · simp [assocGet, hk]
    · simp [assocGet, hk, ih]

theorem assocGet_eq_none_of_no_key {α : Type} (d : List (String × α)) (k : String)
    (h : d.any (fun p => decide (p.1 = k)) = false) :
    assocGet d k = none := by
  induction d with
  | nil => rfl
  | cons p ps ih =>
    obtain ⟨a, b⟩ := p
    simp only [List.any_cons, Bool.or_eq_false_iff, decide_eq_false_iff_not] at h
    have hk : k ≠ a := fun hh => h.1 hh.symm
    simpa [assocGet, hk] using ih (by simp [h.2])

theorem assocGet_dictInsert {α : Type} (d : List (String × α)) (k k' : String) (v : α) :
    assocGet (dictInsert d k' v) k = if k = k' then some v else assocGet d k := by
  unfold dictInsert
  by_cases hany : d.any (fun p => decide (p.1 = k')) = true
  · rw [if_pos hany]
    by_cases hk : k = k'
    · subst hk
      rw [assocGet_map_replace_eq d k v hany, if_pos rfl]
    · rw [assocGet_map_replace_ne d k k' v hk, if_neg hk]
  · rw [if_neg hany, assocGet_append]
    by_cases hk : k = k'
    · subst hk
      have hnone : assocGet d k = none :=
        assocGet_eq_none_of_no_key d k (by simp only [Bool.not_eq_true] at hany; exact hany)
      simp [hnone, assocGet]
    · simp [assocGet, hk]

theorem assocGet_foldl_dictInsert {α : Type} (pairs : List (String × α))
    (d : List (String × α)) (k : String) :
    assocGet (pairs.foldl (fun acc p => dictInsert acc p.1 p.2) d) k =
      (((pairs.filter (fun p => decide (p.1 = k))).map Prod.snd).getLast?).or (assocGet d k) := by
  induction pairs generalizing d with
  | nil => simp
  | cons p ps ih =>
    obtain ⟨a, b⟩ := p
    rw [List.foldl_cons, ih, assocGet_dictInsert]
    by_cases hk : k = a
    · subst hk
      rcases hvs : ((ps.filter (fun p => decide (p.1 = k))).map Prod.snd) with _ | ⟨v, vs⟩
      · simp [List.filter_cons, hvs]
      · simp [List.filter_cons, hvs, List.getLast?_cons_cons,
          List.getLast?_eq_getLast (v :: vs) (by simp)]
    · have hk' : ¬(a = k) := fun hh => hk hh.symm
      simp [List.filter_cons, hk, hk']

/-- C10: in a multi-valued mapping built from an ordered list of key-value
pairs, single-value lookup (`get`, which reads the derived dict) returns the
value of the last occurrence of the key, while `getlist` returns all values
for the key in their original insertion order. -/
theorem multidict_get_is_last_occurrence_getlist_in_order
    (pairs : List (String × String)) (k : String) :
    (ImmutableMultiDict.mk pairs).get k
        = ((ImmutableMultiDict.mk pairs).getlist k).getLast?
      ∧ (ImmutableMultiDict.mk pairs).getlist k
        = (pairs.filter (fun p => decide (p.1 = k))).map Prod.snd := by
  refine ⟨?_, rfl⟩
  have h := assocGet_foldl_dictInsert pairs [] k
  simpa [ImmutableMultiDict.get, ImmutableMultiDict.getlist, buildDict, assocGet,
    Option.or_none] using h

/-- The fixed set of parameter/response shapes used in this development; a
`FieldType` stands for the annotation compiled into a pydantic `TypeAdapter`
by `ModelField.__post_init__` in `models.py`. -/
inductive FieldType where
  | fInt
  | fStr
  | fListStr
  deriving DecidableEq

/-- Decimal digit accumulation over a character list. -/
def decDigitsAux : List Char → Nat → Option Nat
  | [], acc => some acc
  | c :: cs, acc =>
      if c.isDigit then decDigitsAux cs (acc * 10 + (c.toNat - 48)) else none

/-- Integer parsing of a decimal string (an optional leading minus followed by
digits), the shape pydantic's lax mode accepts for int coercion from str. -/
def parseIntStr? (s : String) : Option Int :=
  match s.data with
  | [] => none
  | '-' :: [] => none
  | '-' :: c :: cs => (decDigitsAux (c :: cs) 0).map (fun n => -(n : Int))
  | cs => (decDigitsAux cs 0).map (fun n => (n : Int))

/-- Per-item validation of a list against `List[str]`: returns the validated
items and the issues for non-string items, each tagged with its index. -/
def validateStrItems : Nat → List Value → List Value × List ErrorItem
  | _, [] => ([], [])
  | idx, v :: vs =>
      let rest := validateStrItems (idx + 1) vs
      match v with
      | .vStr s => (.vStr s :: rest.1, rest.2)
      | w => (rest.1,
          ⟨"string_type", [Seg.i idx], "Input should be a valid string", w, none⟩ :: rest.2)

/-- Pydantic `TypeAdapter.validate_python` in its default lax mode, modelled
for the three `FieldType` shapes (pydantic is an external collaborator of the
repository; its error dicts carry `type`, `loc`, `msg` and `input`): integers
accept ints and integer-parseable strings, strings accept only strings, and
`List[str]` accepts lists of strings with per-index issues. -/
def validatePython : FieldType → Value → Except (List ErrorItem) Value
  | .fInt, .vInt n => .ok (.vInt n)
  | .fInt, .vStr s =>
      match parseIntStr? s with
      | some n => .ok (.vInt n)
      | none => .error [⟨"int_parsing", [],
          "Input should be a valid integer, unable to parse string as an integer",
          .vStr s, none⟩]
  | .fInt, v => .error [⟨"int_type", [], "Input should be a valid integer", v, none⟩]
  | .fStr, .vStr s => .ok (.vStr s)
  | .fStr, v => .error [⟨"string_type", [], "Input should be a valid string", v, none⟩]
  | .fListStr, .vList xs =>
      let r := validateStrItems 0 xs
      if r.2.isEmpty then .ok (.vList r.1) else .error r.2
  | .fListStr, v => .error [⟨"list_type", [], "Input should be a valid list", v, none⟩]

/-- `frappeapi.models.ModelField`: a field name plus the `FieldInfo` data the
pipeline reads from it (`alias`, `is_required()`, the default, and the
annotation compiled to a type adapter, here a `FieldType`). -/
structure ModelField where
  name : String
  infoAlias : Option String
  required : Bool
  default : Value
  ftype : FieldType
  deriving DecidableEq

/-- `ModelField.alias` property: `field_info.alias` if set, else the name. -/
def ModelField.alias (f : ModelField) : String :=
  match f.infoAlias with
  | some a => a
  | none => f.name

/-- `frappeapi.utils.is_sequence_field`: the annotation is a sequence type
(`List[str]` is the sequence shape in this development). -/
def is_sequence_field (f : ModelField) : Bool :=
  match f.ftype with
  | .fListStr => true
  | _ => false

/-- `frappeapi.models._regenerate_error_with_loc`: prepend a location prefix
to every issue's location path. -/
def _regenerate_error_with_loc (errors : List ErrorItem) (pre : Loc) : List ErrorItem :=
  errors.map (fun e => { e with loc := pre ++ e.loc })

/-- `ModelField.validate`: run the type adapter; on success return the parsed
value with no issues, on `ValidationError` return Python `None` (here
`Value.vNone`) with the issues prefixed by `loc`. The `values` argument is
accepted and ignored, exactly as in the source. -/
def ModelField.validate (f : ModelField) (value : Value)
    (values : List (String × Value)) (loc : Loc) :
    Value × Option (List ErrorItem) :=
  let _ := values
  match validatePython f.ftype value with
  | .ok v => (v, none)
  | .error errs => (.vNone, some (_regenerate_error_with_loc errs loc))

mutual

/-- `copy.deepcopy` on plain values: a structurally identical copy. Object
identity (the reason the source deep-copies defaults) is modelled separately
by the heap embedding further below. -/
def deepcopy : Value → Value
  | .vNone => .vNone
  | .vStr s => .vStr s
  | .vInt n => .vInt n
  | .vList xs => .vList (deepcopyList xs)
  | .vDict d => .vDict (deepcopyPairs d)

/-- List part of `deepcopy`. -/
def deepcopyList : List Value → List Value
  | [] => []
  | v :: vs => deepcopy v :: deepcopyList vs

/-- Dict part of `deepcopy`. -/
def deepcopyPairs : List (String × Value) → List (String × Value)
  | [] => []
  | (k, v) :: ps => (k, deepcopy v) :: deepcopyPairs ps

end

/-- `frappeapi.utils.get_missing_field_error`: the pydantic "missing" error
for `loc` with its `input` overwritten to Python `None`. -/
def get_missing_field_error (loc : Loc) : ErrorItem :=
  ⟨"missing", loc, "Field required", .vNone, none⟩

/-- `frappeapi.utils._validate_value_with_model_field`. Python `None` (both
"no value extracted" and JSON null) is `Value.vNone`. The `ErrorWrapper`
branch of the source is unreachable because `ModelField.validate` only ever
returns `None` or a list of error dicts. -/
def _validate_value_with_model_field (f : ModelField) (value : Value)
    (values : List (String × Value)) (loc : Loc) : Value × List ErrorItem :=
  if value = .vNone then
    if f.required then (.vNone, [get_missing_field_error loc])
    else (deepcopy f.default, [])
  else
    match f.validate value values loc with
    | (_, some errs) => (.vNone, _regenerate_error_with_loc errs [])
    | (v, none) => (v, [])

/-- A request-shaped container: an `ImmutableMultiDict` (query parameters) or
a plain single-valued mapping (combined headers, parsed JSON body). -/
inductive Source where
  | multi (m : ImmutableMultiDict)
  | single (d : List (String × Value))

/-- The raw fetch of `frappeapi.utils._get_multidict_value`:
`values.getlist(alias)` when the field is a sequence and the source is an
`ImmutableMultiDict`, else `values.get(alias, None)`. -/
def sourceGetRaw (f : ModelField) (values : Source) (aliasKey : String) : Value :=
  match values with
  | .multi m =>
      if is_sequence_field f then .vList ((m.getlist aliasKey).map .vStr)
      else
        match m.get aliasKey with
        | some s => .vStr s
        | none => .vNone
  | .single d =>
      match assocGet d aliasKey with
      | some v => v
      | none => .vNone

/-- Python `len` for sized values; the pipeline only evaluates it on
sequence-shaped values (elsewhere `len` would raise, which no modelled flow
reaches). -/
def pyLen : Value → Option Nat
  | .vList xs => some xs.length
  | .vStr s => some s.length
  | .vDict d => some d.length
  | _ => none

/-- `frappeapi.utils._get_multidict_value`: fetch the value for the resolved
alias; when nothing was found (or a sequence fetch came back empty), signal
missing (`None`) for required fields and substitute a deep copy of the
default otherwise. -/
def _get_multidict_value (f : ModelField) (values : Source)
    (aliasArg : Option String) : Value :=
  let aliasKey := aliasArg.getD f.alias
  let value := sourceGetRaw f values aliasKey
  if value = .vNone ∨ (is_sequence_field f = true ∧ pyLen value = some 0) then
    if f.required then .vNone else deepcopy f.default
  else value

/-- Modelled from the spec: `request_params_to_args`, the per-location loop of
the Validation Aggregator, is imported by `routing.py` from an external
package and has no revision under `src/`. Following spec section 4.5 and 4.4:
for each field in declaration order, resolve the alias, extract the raw value
with `_get_multidict_value`, tag the location path as the location followed by
the field's alias, validate with `_validate_value_with_model_field`, and
accumulate every issue rather than stopping at the first; successfully
validated values are collected under the field's declared name. -/
def request_params_to_args (fields : List ModelField) (location : String)
    (source : Source) : List (String × Value) × List ErrorItem :=
  match fields with
  | [] => ([], [])
  | f :: fs =>
      let value := _get_multidict_value f source none
      let loc : Loc := [.s location, .s f.alias]
      let r := _validate_value_with_model_field f value [] loc
      let rest := request_params_to_args fs location source
      match r.2 with
      | [] => ((f.name, r.1) :: rest.1, rest.2)
      | _ => (rest.1, r.2 ++ rest.2)

/-- The per-field loop of `frappeapi.routing.request_body_to_args`: each body
field is fetched from the parsed body by alias (`body_to_process.get`); if the
body is not a dict the `.get` call raises `AttributeError` and the field is
reported missing. -/
def bodyFieldLoop (fields : List ModelField) (body : Value) :
    List (String × Value) × List ErrorItem :=
  match fields with
  | [] => ([], [])
  | f :: fs =>
      let loc : Loc := [.s "body", .s f.alias]
      let rest := bodyFieldLoop fs body
      let value : Except Unit Value :=
        match body with
        | .vNone => .ok .vNone
        | .vDict d => .ok ((assocGet d f.alias).getD .vNone)
        | _ => .error ()
      match value with
      | .error _ => (rest.1, get_missing_field_error loc :: rest.2)
      | .ok v =>
          let r := _validate_value_with_model_field f v [] loc
          match r.2 with
          | [] => ((f.name, r.1) :: rest.1, rest.2)
          | _ => (rest.1, r.2 ++ rest.2)

/-- `frappeapi.routing.request_body_to_args` for non-form bodies: a single
non-embedded body field validates the whole body at location `("body",)`,
otherwise each field is extracted by alias at `("body", alias)`. The source
asserts `body_fields` is nonempty; the empty case is unreachable. The
form-data extraction branch (`_extract_form_body`) is outside the modelled
scope. -/
def request_body_to_args (bodyFields : List ModelField) (receivedBody : Value)
    (embedBodyFields : Bool) : List (String × Value) × List ErrorItem :=
  match bodyFields with
  | [] => ([], [])
  | first :: rest =>
      let singleNotEmbedded := rest.isEmpty && !embedBodyFields
      if singleNotEmbedded then
        let r := _validate_value_with_model_field first receivedBody [] [.s "body"]
        ([(first.name, r.1)], r.2)
      else
        bodyFieldLoop bodyFields receivedBody

/-- Distinct keys in first-occurrence order (the iteration order of the
`defaultdict` used to group header values). -/
def dedupKeys (ks : List String) : List String :=
  ks.foldl (fun acc k => if k ∈ acc then acc else acc ++ [k]) []

/-- Lines 342 to 347 of `routing.py` (`parse_and_validate_request`): group the
request's header occurrences by key and join each group's values with a comma
and space into a single-valued mapping. -/
def combineHeaders (hs : List (String × String)) : List (String × String) :=
  (dedupKeys (hs.map Prod.fst)).map
    (fun k => (k, String.intercalate ", " ((hs.filter (fun p => decide (p.1 = k))).map Prod.snd)))

/-- Python `dict.update`: insert every pair of `e` into `d` in order,
overwriting values of existing keys. -/
def dictUpdate {α : Type} (d e : List (String × α)) : List (String × α) :=
  e.foldl (fun acc p => dictInsert acc p.1 p.2) d

/-- `frappeapi.models.Dependant`, restricted to the per-location field lists
the pipeline reads. -/
structure Dependant where
  queryParams : List ModelField
  headerParams : List ModelField
  cookieParams : List ModelField
  bodyParams : List ModelField

/-- `frappeapi.models.SolvedDependency` together with the observable state of
the pre-built response envelope (a fresh `WerkzeugResponse` whose status is
set to 200; its default headers carry a text/html content type and the
`content-length` header is deleted). -/
structure SolvedDependency where
  values : List (String × Value)
  errors : List ErrorItem
  envStatus : Nat
  envHeaders : List (String × String)
  deriving DecidableEq

/-- `frappeapi.routing.parse_and_validate_request`: build the fresh envelope,
wrap the query string into `QueryParams` (an `ImmutableMultiDict`), join
duplicate headers into a single-valued mapping, then collect values and
issues: body first (when body fields exist), then query, then header. Cookie
parameters are never extracted (the source carries a bare `TODO: Cookies`). -/
def parse_and_validate_request (dep : Dependant)
    (queryPairs headerPairs : List (String × String)) (body : Value)
    (embedBodyFields : Bool) : SolvedDependency :=
  let requestQueryParams : Source := .multi ⟨queryPairs⟩
  let requestHeaders : Source :=
    .single ((combineHeaders headerPairs).map (fun p => (p.1, Value.vStr p.2)))
  let bodyRes :=
    if dep.bodyParams.isEmpty then ([], [])
    else request_body_to_args dep.bodyParams body embedBodyFields
  let queryRes := request_params_to_args dep.queryParams "query" requestQueryParams
  let headerRes := request_params_to_args dep.headerParams "header" requestHeaders
  { values := dictUpdate (dictUpdate bodyRes.1 queryRes.1) headerRes.1
    errors := bodyRes.2 ++ (queryRes.2 ++ headerRes.2)
    envStatus := 200
    envHeaders := [("Content-Type", "text/html; charset=utf-8")] }

/-- A wire response (werkzeug `Response`): status code, header list, and a
body (`none` stands for the empty byte body). -/
structure Response where
  status : Nat
  headers : List (String × String)
  body : Option Value
  deriving DecidableEq

/-- `fastapi.encoders.jsonable_encoder` restricted to the JSON-shaped values
of this development, where it is the identity. -/
def jsonable_encoder (v : Value) : Value := v

/-- `ModelField.serialize` (`TypeAdapter.dump_python` in json mode) for the
three `FieldType` shapes: validated ints, strings and string lists dump to
themselves. -/
def ModelField.serialize (f : ModelField) (v : Value) : Value :=
  let _ := f
  v

/-- `frappeapi.utils.is_body_allowed_for_status_code` on integer status codes
(the `None` case is kept; the `"default"`/`"nXX"` pattern strings are
registration-time inputs that never reach the request path). -/
def is_body_allowed_for_status_code : Option Nat → Bool
  | none => true
  | some c => !(decide (c < 200) || decide (c = 204) || decide (c = 205) || decide (c = 304))

/-- `frappeapi.routing.serialize_response`: with a response field, validate
the handler's return value at location `("response",)`; any issue raises
`ResponseValidationError` carrying the issues and the offending body, else the
validated value is serialized. Without a response field the content is passed
to `jsonable_encoder`. The pydantic v1 fallback (`not hasattr(field,
"serialize")`) is dead for these fields, which always have `serialize`. -/
def serialize_response (field : Option ModelField) (responseContent : Value) :
    Except (List ErrorItem × Value) Value :=
  match field with
  | none => .ok (jsonable_encoder responseContent)
  | some f =>
      match f.validate responseContent [] [.s "response"] with
      | (_, some errs) => .error (errs, responseContent)
      | (v, none) => .ok (f.serialize v)

/-- Issue location segment as a JSON value. -/
def segToValue : Seg → Value
  | .s v => .vStr v
  | .i n => .vInt n

/-- A pydantic-style error dict as a JSON value. -/
def errorToValue (e : ErrorItem) : Value :=
  .vDict ([("type", .vStr e.etype), ("loc", .vList (e.loc.map segToValue)),
    ("msg", .vStr e.msg), ("input", e.input)] ++
    (match e.ctx with
     | some c => [("ctx", c)]
     | none => []))

/-- `frappeapi.exception_handler.request_validation_exception_handler`: a 422
JSON response whose body is a dict with the issue list under `detail`. -/
def request_validation_exception_handler (errors : List ErrorItem) : Response :=
  { status := 422
    headers := [("Content-Type", "application/json")]
    body := some (.vDict [("detail", .vList (errors.map errorToValue))]) }

/-- `frappeapi.exception_handler.response_validation_exception_handler`: a 500
response with an empty body. -/
def response_validation_exception_handler : Response :=
  { status := 500
    headers := [("Content-Type", "application/json")]
    body := none }

/-- The route's registered exception-handler table, restricted to the
exception kinds reachable inside the dispatch loop of `handle_request`; each
custom handler receives what the exception carries (issues and body). -/
structure ExcHandlers where
  onReqVal : Option (List ErrorItem → Value → Response)
  onRespVal : Option (List ErrorItem → Value → Response)

/-- The route table with no custom handlers registered, so the default
handlers run. -/
def defaultExcHandlers : ExcHandlers := ⟨none, none⟩

/-- Outcome of the body-reading stage of `handle_request` (the transport's
body stream and content type are external collaborators, so the stage is
abstracted by its outcome): a parsed body, a `json.JSONDecodeError` with its
position, message and document, an `HTTPException` raised during parsing, or
any other exception. -/
inductive BodyParseOutcome where
  | parsed (body : Value)
  | jsonDecodeError (pos : Int) (emsg : String) (doc : String)
  | httpExcRaised (status : Nat) (detail : String)
  | otherException

/-- An exception escaping `handle_request` (raised by the body-parsing stage
outside the inner try/except). `typeErrorCrash` models the generic branch at
line 622 of `routing.py`, whose `HTTPException(status=400, ...)` call passes a
keyword the constructor does not accept and therefore raises `TypeError`. -/
inductive PipelineError where
  | requestValidation (errors : List ErrorItem) (body : Value)
  | httpExc (status : Nat) (detail : String)
  | typeErrorCrash
  deriving DecidableEq

/-- What the endpoint call returns: a raw wire response or a plain value. -/
inductive EndpointResult where
  | raw (r : Response)
  | value (v : Value)

/-- The per-route configuration that `handle_request` reads: the explicit
status code and the (secure cloned) response field. -/
structure RouteCfg where
  statusCode : Option Nat
  responseField : Option ModelField

/-- Python truthiness of `self.status_code` (an optional int). -/
def statusTruthy : Option Nat → Bool
  | some n => decide (n ≠ 0)
  | none => false

/-- ASCII lowercase of a character. -/
def asciiLower (c : Char) : Char :=
  if 65 ≤ c.toNat ∧ c.toNat ≤ 90 then Char.ofNat (c.toNat + 32) else c

/-- ASCII lowercase of a header name. -/
def lowerName (s : String) : String := ⟨s.data.map asciiLower⟩

/-- Werkzeug's case-insensitive `key in response.headers`. -/
def headerContains (hs : List (String × String)) (k : String) : Bool :=
  hs.any (fun p => decide (lowerName p.1 = lowerName k))

/-- Lines 677 to 679 of `routing.py`: add each envelope header absent from the
response (this loop runs only in the serialized, non-raw branch). -/
def mergeEnvelopeHeaders (envHeaders : List (String × String)) (r : Response) : Response :=
  envHeaders.foldl
    (fun resp kv =>
      if headerContains resp.headers kv.1 then resp
      else { resp with headers := resp.headers ++ [kv] })
    r

/-- `frappeapi.routing.APIRoute.handle_request`, from the body-reading stage
through dispatch. Body-stage exceptions (lines 604 to 623) are raised outside
the inner try/except and escape as `PipelineError`. With a parsed body the
request is solved; with no issues the endpoint runs, a raw response is
returned as-is, and a plain value is serialized into the response class with
the status-code arguments computed at lines 646 to 655 and the envelope
headers merged in; issues raise `RequestValidationError`, and serialization
issues raise `ResponseValidationError`, each dispatched to the registered or
default handler. -/
def handleRequest (route : RouteCfg) (eh : ExcHandlers) (dep : Dependant)
    (queryPairs headerPairs : List (String × String))
    (bodyOutcome : BodyParseOutcome) (embedBodyFields : Bool)
    (endpoint : List (String × Value) → EndpointResult) :
    Except PipelineError Response :=
  match bodyOutcome with
  | .jsonDecodeError pos emsg doc =>
      .error (.requestValidation
        [⟨"json_invalid", [.s "body", .i pos], "JSON decode error", .vDict [],
          some (.vDict [("error", .vStr emsg)])⟩]
        (.vStr doc))
  | .httpExcRaised st detail => .error (.httpExc st detail)
  | .otherException => .error .typeErrorCrash
  | .parsed body =>
      let solved := parse_and_validate_request dep queryPairs headerPairs body embedBodyFields
      if solved.errors.isEmpty then
        match endpoint solved.values with
        | .raw r => .ok r
        | .value rawResponse =>
            let currentStatusCode : Option Nat :=
              if statusTruthy route.statusCode then route.statusCode else some solved.envStatus
            let statusArg : Option Nat :=
              if solved.envStatus ≠ 0 then some solved.envStatus else currentStatusCode
            match serialize_response route.responseField rawResponse with
            | .error e =>
                match eh.onRespVal with
                | some h => .ok (h e.1 e.2)
                | none => .ok response_validation_exception_handler
            | .ok content =>
                let st := statusArg.getD 200
                let resp0 : Response :=
                  { status := st
                    headers := [("Content-Type", "application/json")]
                    body := some content }
                let resp1 :=
                  if is_body_allowed_for_status_code (some st) then resp0
                  else { resp0 with body := none }
                .ok (mergeEnvelopeHeaders solved.envHeaders resp1)
      else
        match eh.onReqVal with
        | some h => .ok (h solved.errors body)
        | none => .ok (request_validation_exception_handler solved.errors)

/-- C9: `ModelField.validate` is a pure function of the raw value and the
location prefix: two calls with the same raw value and location prefix return
identical parsed values and identical issue lists, whatever the
accumulated-values argument holds (the source accepts and ignores it), so the
two calls are indistinguishable. -/
theorem modelField_validate_idempotent (f : ModelField) (value : Value)
    (values1 values2 : List (String × Value)) (loc : Loc) :
    ModelField.validate f value values1 loc = ModelField.validate f value values2 loc :=
  rfl

/-- C4: a body whose parsing raises `json.JSONDecodeError` is converted into a
request-validation error carrying exactly one synthetic issue describing the
decode failure (type `json_invalid`, located at body plus the error position,
with the decoder message under `ctx`), while an `HTTPException` raised during
body parsing is re-raised unchanged with its status and detail rather than
reinterpreted as a parsing failure; in both cases the handler never runs. -/
theorem body_parse_failure_conversion (route : RouteCfg) (eh : ExcHandlers)
    (dep : Dependant) (queryPairs headerPairs : List (String × String))
    (embedBodyFields : Bool) (endpoint : List (String × Value) → EndpointResult)
    (pos : Int) (emsg doc : String) (st : Nat) (detail : String) :
    handleRequest route eh dep queryPairs headerPairs
        (.jsonDecodeError pos emsg doc) embedBodyFields endpoint
      = .error (.requestValidation
          [⟨"json_invalid", [.s "body", .i pos], "JSON decode error", .vDict [],
            some (.vDict [("error", .vStr emsg)])⟩] (.vStr doc))
    ∧ handleRequest route eh dep queryPairs headerPairs
        (.httpExcRaised st detail) embedBodyFields endpoint
      = .error (.httpExc st detail) :=
  ⟨rfl, rfl⟩

/-- C5 (evaluation at the failing input): a route declaring explicit status
code 201 and response type int, an empty binding plan, and a handler returning
1. The dispatched response carries status 200, not the declared 201: the
pre-built envelope's status (always set to 200) is truthy, so line 655 of
`routing.py` overwrites the explicit status chosen at lines 649 to 653,
contradicting the comment above it and the specification. -/
theorem explicit_status_code_overwritten_by_envelope :
    handleRequest ⟨some 201, some ⟨"Response", none, true, .vNone, .fInt⟩⟩
        defaultExcHandlers ⟨[], [], [], []⟩ [] [] (.parsed .vNone) false
        (fun _ => .value (.vInt 1))
      = .ok ⟨200, [("Content-Type", "application/json")], some (.vInt 1)⟩
    ∧ (200 : Nat) ≠ 201 :=
  ⟨rfl, by decide⟩

/-- C3: on a route with a declared response type and no custom
`ResponseValidationError` handler, a handler return value that fails
validation against the response field produces the default
response-validation response: status 500 with an empty body, so the offending
return value never appears in the response sent to the caller. -/
theorem response_validation_failure_returns_500_empty (route : RouteCfg)
    (eh : ExcHandlers) (dep : Dependant)
    (queryPairs headerPairs : List (String × String)) (body : Value)
    (embedBodyFields : Bool) (endpoint : List (String × Value) → EndpointResult)
    (v : Value) (e : List ErrorItem × Value)
    (hnoCustom : eh.onRespVal = none)
    (hnoErrors :
      (parse_and_validate_request dep queryPairs headerPairs body embedBodyFields).errors = [])
    (hendpoint :
      endpoint (parse_and_validate_request dep queryPairs headerPairs body embedBodyFields).values
        = .value v)
    (hfail : serialize_response route.responseField v = .error e) :
    handleRequest route eh dep queryPairs headerPairs (.parsed body) embedBodyFields endpoint
      = .ok response_validation_exception_handler
    ∧ response_validation_exception_handler.status = 500
    ∧ response_validation_exception_handler.body = none := by
  refine ⟨?_, rfl, rfl⟩
  simp only [handleRequest, hnoErrors, hendpoint, hfail, hnoCustom, List.isEmpty_nil, if_true]

/-- Witness for C3: response type int, handler returns the string "oops". -/
theorem response_validation_failure_witness :
    handleRequest ⟨none, some ⟨"Response", none, true, .vNone, .fInt⟩⟩ defaultExcHandlers
        ⟨[], [], [], []⟩ [] [] (.parsed .vNone) false (fun _ => .value (.vStr "oops"))
      = .ok response_validation_exception_handler
    ∧ response_validation_exception_handler.status = 500
    ∧ response_validation_exception_handler.body = none :=
  response_validation_failure_returns_500_empty
    ⟨none, some ⟨"Response", none, true, .vNone, .fInt⟩⟩ defaultExcHandlers
    ⟨[], [], [], []⟩ [] [] .vNone false (fun _ => .value (.vStr "oops"))
    (.vStr "oops")
    ([⟨"int_parsing", [.s "response"],
       "Input should be a valid integer, unable to parse string as an integer",
       .vStr "oops", none⟩], .vStr "oops")
    rfl rfl rfl rfl

/-- C6 (counterexample): a handler returns a raw wire response with no headers
while the pre-built envelope carries its default content-type header; the
dispatched response is the raw response exactly as built, and the envelope
header, although absent from the handler's response, is not merged in (the
merge loop at lines 677 to 679 runs only in the serialized branch). -/
theorem raw_response_envelope_header_not_merged :
    handleRequest ⟨none, none⟩ defaultExcHandlers ⟨[], [], [], []⟩ [] []
        (.parsed .vNone) false (fun _ => .raw ⟨418, [], some (.vStr "teapot")⟩)
      = .ok ⟨418, [], some (.vStr "teapot")⟩
    ∧ ("Content-Type", "text/html; charset=utf-8")
        ∈ (parse_and_validate_request ⟨[], [], [], []⟩ [] [] .vNone false).envHeaders
    ∧ ("Content-Type", "text/html; charset=utf-8")
        ∉ (Response.mk 418 [] (some (.vStr "teapot"))).headers := by
  refine ⟨rfl, ?_, ?_⟩
  · simp [parse_and_validate_request]
  · simp

/-- C6 amended: a raw wire-response returned by the handler is passed through
completely unchanged: no response validation, no re-serialization, and also no
header merging (envelope headers are merged only into serialized, non-raw
responses). -/
theorem raw_response_passed_through_unchanged (route : RouteCfg)
    (eh : ExcHandlers) (dep : Dependant)
    (queryPairs headerPairs : List (String × String)) (body : Value)
    (embedBodyFields : Bool) (endpoint : List (String × Value) → EndpointResult)
    (r : Response)
    (hnoErrors :
      (parse_and_validate_request dep queryPairs headerPairs body embedBodyFields).errors = [])
    (hendpoint :
      endpoint (parse_and_validate_request dep queryPairs headerPairs body embedBodyFields).values
        = .raw r) :
    handleRequest route eh dep queryPairs headerPairs (.parsed body) embedBodyFields endpoint
      = .ok r := by
  simp only [handleRequest, hnoErrors, hendpoint, List.isEmpty_nil, if_true]

/-- Witness for the amended C6 at a concrete raw response. -/
theorem raw_response_passed_through_witness :
    handleRequest ⟨some 201, none⟩ defaultExcHandlers ⟨[], [], [], []⟩ [] []
        (.parsed .vNone) false
        (fun _ => .raw ⟨207, [("X-Custom", "yes")], some (.vStr "raw")⟩)
      = .ok ⟨207, [("X-Custom", "yes")], some (.vStr "raw")⟩ :=
  raw_response_passed_through_unchanged ⟨some 201, none⟩ defaultExcHandlers
    ⟨[], [], [], []⟩ [] [] .vNone false
    (fun _ => .raw ⟨207, [("X-Custom", "yes")], some (.vStr "raw")⟩)
    ⟨207, [("X-Custom", "yes")], some (.vStr "raw")⟩ rfl rfl

/-- Every issue produced by `_validate_value_with_model_field` is located at
the given location path, possibly extended by deeper segments. -/
theorem validate_value_errors_loc (f : ModelField) (value : Value)
    (values : List (String × Value)) (loc : Loc) :
    ∀ e ∈ (_validate_value_with_model_field f value values loc).2,
      ∃ t, e.loc = loc ++ t := by
  intro e he
  unfold _validate_value_with_model_field at he
  by_cases hv : value = .vNone
  · rw [if_pos hv] at he
    by_cases hr : f.required = true
    · simp only [hr, if_true] at he
      simp only [List.mem_singleton] at he
      exact ⟨[], by simp [he, get_missing_field_error]⟩
    · simp only [Bool.not_eq_true] at hr
      simp [hr] at he
  · rw [if_neg hv] at he
    cases hvp : validatePython f.ftype value with
    | ok v => simp [ModelField.validate, hvp] at he
    | error errs =>
      simp only [ModelField.validate, hvp, _regenerate_error_with_loc, List.map_map,
        List.mem_map] at he
      obtain ⟨base, _, rfl⟩ := he
      exact ⟨base.loc, by simp⟩

/-- The issue list of the per-location loop is the concatenation, in field
declaration order, of each field's issue list. -/
theorem request_params_to_args_errors_flatten (fields : List ModelField)
    (location : String) (source : Source) :
    (request_params_to_args fields location source).2 =
      (fields.map (fun f =>
        (_validate_value_with_model_field f (_get_multidict_value f source none) []
          [.s location, .s f.alias]).2)).flatten := by
  induction fields with
  | nil => rfl
  | cons f fs ih =>
    simp only [request_params_to_args, List.map_cons, List.flatten_cons]
    cases herr : (_validate_value_with_model_field f (_get_multidict_value f source none)
        [] [.s location, .s f.alias]).2 with
    | nil => simpa using ih
    | cons e es => simp [ih]

/-- Every issue of the per-location loop carries some declared field's
location-plus-alias path as a prefix. -/
theorem request_params_errors_shape (fields : List ModelField) (location : String)
    (source : Source) :
    ∀ e ∈ (request_params_to_args fields location source).2,
      ∃ g ∈ fields, ∃ t, e.loc = [Seg.s location, Seg.s g.alias] ++ t := by
  intro e he
  rw [request_params_to_args_errors_flatten] at he
  simp only [List.mem_flatten, List.mem_map] at he
  obtain ⟨l, ⟨g, hg, rfl⟩, hel⟩ := he
  obtain ⟨t, ht⟩ := validate_value_errors_loc g _ _ _ e hel
  exact ⟨g, hg, t, ht⟩

/-- Every issue of the per-location loop is located in that location. -/
theorem request_params_errors_head (fields : List ModelField) (location : String)
    (source : Source) :
    ∀ e ∈ (request_params_to_args fields location source).2,
      e.loc.head? = some (.s location) := by
  intro e he
  obtain ⟨g, _, t, ht⟩ := request_params_errors_shape fields location source e he
  simp [ht]

/-- Every issue of the body field loop is located in the body. -/
theorem bodyFieldLoop_errors_head (fields : List ModelField) (body : Value) :
    ∀ e ∈ (bodyFieldLoop fields body).2, e.loc.head? = some (.s "body") := by
  induction fields with
  | nil => intro e he; simp [bodyFieldLoop] at he
  | cons f fs ih =>
    intro e he
    unfold bodyFieldLoop at he
    rcases body with _ | s | n | xs | d
    · simp only at he
      cases herr : (_validate_value_with_model_field f .vNone [] [.s "body", .s f.alias]).2 with
      | nil => rw [herr] at he; exact ih e he
      | cons e1 es =>
        rw [herr] at he
        rcases List.mem_append.mp he with h1 | h2
        · obtain ⟨t, ht⟩ := validate_value_errors_loc f .vNone [] [.s "body", .s f.alias] e
            (by rw [herr]; exact h1)
          simp [ht]
        · exact ih e h2
    · simp only at he
      rcases List.mem_cons.mp he with h1 | h2
      · simp [h1, get_missing_field_error]
      · exact ih e h2
    · simp only at he
      rcases List.mem_cons.mp he with h1 | h2
      · simp [h1, get_missing_field_error]
      · exact ih e h2
    · simp only at he
      rcases List.mem_cons.mp he with h1 | h2
      · simp [h1, get_missing_field_error]
      · exact ih e h2
    · simp only at he
      cases herr : (_validate_value_with_model_field f ((assocGet d f.alias).getD .vNone)
          [] [.s "body", .s f.alias]).2 with
      | nil => rw [herr] at he; exact ih e he
      | cons e1 es =>
        rw [herr] at he
        rcases List.mem_append.mp he with h1 | h2
        · obtain ⟨t, ht⟩ := validate_value_errors_loc f ((assocGet d f.alias).getD .vNone)
            [] [.s "body", .s f.alias] e (by rw [herr]; exact h1)
          simp [ht]
        · exact ih e h2

/-- Every issue of `request_body_to_args` is located in the body. -/
theorem request_body_to_args_errors_head (fields : List ModelField) (body : Value)
    (embed : Bool) :
    ∀ e ∈ (request_body_to_args fields body embed).2,
      e.loc.head? = some (.s "body") := by
  intro e he
  rcases fields with _ | ⟨first, rest⟩
  · simp [request_body_to_args] at he
  · by_cases hsingle : (rest.isEmpty && !embed) = true
    · simp only [request_body_to_args, hsingle, if_true] at he
      obtain ⟨t, ht⟩ := validate_value_errors_loc first body [] [.s "body"] e he
      simp [ht]
    · simp only [Bool.not_eq_true] at hsingle
      simp only [request_body_to_args, hsingle, Bool.false_eq_true, if_false] at he
      exact bodyFieldLoop_errors_head (first :: rest) body e he

/-- Rank of an issue location in the order asserted by the claim: query, then
header, then cookie, then body. -/
def claimLocRank (l : Loc) : Nat :=
  match l.head? with
  | some (.s "query") => 0
  | some (.s "header") => 1
  | some (.s "cookie") => 2
  | some (.s "body") => 3
  | _ => 4

/-- An aggregate issue list ordered as the claim asserts. -/
def issuesClaimOrdered (errs : List ErrorItem) : Prop :=
  errs.Pairwise (fun a b => claimLocRank a.loc ≤ claimLocRank b.loc)

/-- C2 (counterexample): one required query field `n` and one required
(embedded) body field `b`, both absent; the aggregate issue list starts with
the body issue and then the query issue, so the issues are not ordered
query-header-cookie-body as the claim asserts. -/
theorem aggregate_error_order_counterexample :
    (parse_and_validate_request
        ⟨[⟨"n", none, true, .vNone, .fInt⟩], [], [], [⟨"b", none, true, .vNone, .fInt⟩]⟩
        [] [] .vNone true).errors
      = [get_missing_field_error [.s "body", .s "b"],
         get_missing_field_error [.s "query", .s "n"]]
    ∧ ¬ issuesClaimOrdered
        (parse_and_validate_request
          ⟨[⟨"n", none, true, .vNone, .fInt⟩], [], [], [⟨"b", none, true, .vNone, .fInt⟩]⟩
          [] [] .vNone true).errors := by
  refine ⟨rfl, fun h => ?_⟩
  rw [show (parse_and_validate_request
        ⟨[⟨"n", none, true, .vNone, .fInt⟩], [], [], [⟨"b", none, true, .vNone, .fInt⟩]⟩
        [] [] .vNone true).errors
      = [get_missing_field_error [.s "body", .s "b"],
         get_missing_field_error [.s "query", .s "n"]] from rfl] at h
  have hle := (List.pairwise_cons.mp h).1 _ (List.mem_singleton_self _)
  exact absurd hle (by decide)

/-- `parse_and_validate_request` never reads the cookie parameter list. -/
theorem parse_ignores_cookies (dep : Dependant) (cookieFields : List ModelField)
    (queryPairs headerPairs : List (String × String)) (body : Value)
    (embedBodyFields : Bool) :
    parse_and_validate_request { dep with cookieParams := cookieFields }
        queryPairs headerPairs body embedBodyFields
      = parse_and_validate_request dep queryPairs headerPairs body embedBodyFields := rfl

/-- C2 amended: all issues are accumulated, never stopping at the first, and
the aggregate issue list is ordered body first, then query, then header (not
query-header-cookie-body): it is exactly the body issues followed by the query
issues followed by the header issues, each located in its own location, with
field-declaration order within each location (the per-location list is the
concatenation of the per-field issue lists in declaration order, shown here
for the query location); cookie parameters are never extracted and contribute
nothing. -/
theorem aggregate_error_accumulation_and_order (dep : Dependant)
    (queryPairs headerPairs : List (String × String)) (body : Value)
    (embedBodyFields : Bool) :
    ((parse_and_validate_request dep queryPairs headerPairs body embedBodyFields).errors
        = (if dep.bodyParams.isEmpty then []
           else (request_body_to_args dep.bodyParams body embedBodyFields).2)
          ++ ((request_params_to_args dep.queryParams "query" (.multi ⟨queryPairs⟩)).2
            ++ (request_params_to_args dep.headerParams "header"
                (.single ((combineHeaders headerPairs).map (fun p => (p.1, Value.vStr p.2))))).2))
    ∧ (∀ e ∈ (request_body_to_args dep.bodyParams body embedBodyFields).2,
        e.loc.head? = some (.s "body"))
    ∧ (∀ e ∈ (request_params_to_args dep.queryParams "query" (.multi ⟨queryPairs⟩)).2,
        e.loc.head? = some (.s "query"))
    ∧ (∀ e ∈ (request_params_to_args dep.headerParams "header"
          (.single ((combineHeaders headerPairs).map (fun p => (p.1, Value.vStr p.2))))).2,
        e.loc.head? = some (.s "header"))
    ∧ (request_params_to_args dep.queryParams "query" (.multi ⟨queryPairs⟩)).2
        = (dep.queryParams.map (fun f =>
            (_validate_value_with_model_field f
              (_get_multidict_value f (.multi ⟨queryPairs⟩) none) []
              [.s "query", .s f.alias]).2)).flatten
    ∧ (∀ cookieFields,
        parse_and_validate_request { dep with cookieParams := cookieFields }
            queryPairs headerPairs body embedBodyFields
          = parse_and_validate_request dep queryPairs headerPairs body embedBodyFields) := by
  refine ⟨?_, request_body_to_args_errors_head dep.bodyParams body embedBodyFields,
    request_params_errors_head dep.queryParams "query" _,
    request_params_errors_head dep.headerParams "header" _,
    request_params_to_args_errors_flatten dep.queryParams "query" _,
    fun cookieFields => parse_ignores_cookies dep cookieFields queryPairs headerPairs body
      embedBodyFields⟩
  by_cases hb : dep.bodyParams.isEmpty = true
  · simp [parse_and_validate_request, hb]
  · simp only [Bool.not_eq_true] at hb
    simp [parse_and_validate_request, hb]

theorem mem_foldl_dedup (ks : List String) (acc : List String) (x : String) :
    x ∈ ks.foldl (fun acc k => if k ∈ acc then acc else acc ++ [k]) acc
      ↔ x ∈ acc ∨ x ∈ ks := by
  induction ks generalizing acc with
  | nil => simp
  | cons k ks ih =>
    rw [List.foldl_cons, ih]
    by_cases hk : k ∈ acc
    · rw [if_pos hk]
      constructor
      · rintro (h | h)
        · exact Or.inl h
        · exact Or.inr (List.mem_cons_of_mem _ h)
      · rintro (h | h)
        · exact Or.inl h
        · rcases List.mem_cons.mp h with rfl | h
          · exact Or.inl hk
          · exact Or.inr h
    · rw [if_neg hk]
      simp only [List.mem_append, List.mem_singleton, List.mem_cons]
      tauto

/-- Membership in `dedupKeys` is membership in the original list. -/
theorem mem_dedupKeys (ks : List String) (x : String) :
    x ∈ dedupKeys ks ↔ x ∈ ks := by
  unfold dedupKeys
  rw [mem_foldl_dedup]
  simp

/-- Lookup in a list of pairs whose second component is a function of the key:
present exactly for keys of the list. -/
theorem assocGet_map_keyfun (ks : List String) (g : String → String) (key : String) :
    assocGet (ks.map (fun k => (k, g k))) key
      = if key ∈ ks then some (g key) else none := by
  induction ks with
  | nil => simp [assocGet]
  | cons k ks ih =>
    by_cases hk : key = k
    · subst hk
      simp [assocGet]
    · simp only [List.map_cons, assocGet, if_neg hk, ih, List.mem_cons]
      by_cases hmem : key ∈ ks
      · simp [hmem]
      · simp [hmem, hk]

/-- C7 (counterexample): a request carries two occurrences of header `X-Tag`
with values `a` then `b`, bound to a sequence-of-string field aliased
`X-Tag`. The header-combining step joins the two occurrences into the single
value `a, b` before extraction, so the raw bound value is the single string
`"a, b"`, not the list `["a", "b"]` the claim asserts. -/
theorem header_sequence_extraction_counterexample :
    combineHeaders [("X-Tag", "a"), ("X-Tag", "b")] = [("X-Tag", "a, b")]
    ∧ _get_multidict_value ⟨"x_tag", some "X-Tag", true, .vNone, .fListStr⟩
        (.single ((combineHeaders [("X-Tag", "a"), ("X-Tag", "b")]).map
          (fun p => (p.1, Value.vStr p.2)))) none
      = .vStr "a, b"
    ∧ Value.vStr "a, b" ≠ Value.vList [.vStr "a", .vStr "b"] :=
  ⟨rfl, rfl, fun h => Value.noConfusion h⟩

/-- C7 amended: for a sequence-of-scalar field bound to a multi-valued
`ImmutableMultiDict` source (query parameters), extraction fetches all values
for the field's resolved alias key in their original order; header
occurrences, however, are first merged by `parse_and_validate_request` into a
single-valued mapping whose value for each key is the comma-and-space join of
all that key's occurrences in order, so duplicate headers reach extraction as
one joined string rather than as a list. -/
theorem sequence_extraction_order_and_header_join (f : ModelField)
    (m : ImmutableMultiDict) (hs : List (String × String)) (k : String)
    (hseq : is_sequence_field f = true)
    (hne : m.getlist f.alias ≠ [])
    (hk : k ∈ hs.map Prod.fst) :
    _get_multidict_value f (.multi m) none
        = .vList ((m.getlist f.alias).map .vStr)
    ∧ assocGet (combineHeaders hs) k
        = some (String.intercalate ", "
            ((hs.filter (fun p => decide (p.1 = k))).map Prod.snd)) := by
  constructor
  · unfold _get_multidict_value sourceGetRaw
    simp only [hseq, if_true, Option.getD_none]
    have hvne : Value.vList ((m.getlist f.alias).map .vStr) ≠ .vNone :=
      fun h => Value.noConfusion h
    have hlen : pyLen (.vList ((m.getlist f.alias).map .vStr)) ≠ some 0 := by
      simp only [pyLen, List.length_map, ne_eq, Option.some.injEq]
      simpa [List.length_eq_zero] using hne
    rw [if_neg]
    rintro (h | ⟨-, h⟩)
    · exact hvne h
    · exact hlen h
  · unfold combineHeaders
    rw [assocGet_map_keyfun, if_pos ((mem_dedupKeys _ _).mpr hk)]

/-- Witness for the amended C7: a query multidict with two `t` occurrences
binds `["a", "b"]` in order, and headers `X-Tag: a`, `X-Tag: b` are joined to
the single value `a, b`. -/
theorem sequence_extraction_order_and_header_join_witness :
    _get_multidict_value ⟨"t", none, true, .vNone, .fListStr⟩
        (.multi ⟨[("t", "a"), ("t", "b")]⟩) none = .vList [.vStr "a", .vStr "b"]
    ∧ assocGet (combineHeaders [("X-Tag", "a"), ("X-Tag", "b")]) "X-Tag" = some "a, b" := by
  have h := sequence_extraction_order_and_header_join ⟨"t", none, true, .vNone, .fListStr⟩
    ⟨[("t", "a"), ("t", "b")]⟩ [("X-Tag", "a"), ("X-Tag", "b")] "X-Tag"
    rfl (by decide) (by decide)
  exact ⟨h.1.trans (by rfl), h.2.trans (by rfl)⟩

/-- An issue of kind `missing` located exactly at `loc`. -/
def isMissingAt (loc : Loc) (e : ErrorItem) : Bool :=
  decide (e.etype = "missing") && decide (e.loc = loc)

/-- C1 (counterexample): a single non-embedded required body parameter
`payload` and a request with no body: the aggregate error holds exactly one
missing issue, but it is located at `("body",)` alone, not at the field's
location plus its alias `("body", "payload")` as the claim asserts for every
required field. -/
theorem missing_required_field_loc_counterexample :
    (parse_and_validate_request ⟨[], [], [], [⟨"payload", none, true, .vNone, .fInt⟩]⟩
        [] [] .vNone false).errors
      = [get_missing_field_error [.s "body"]]
    ∧ ([Seg.s "body"] : Loc) ≠ [Seg.s "body", Seg.s "payload"] :=
  ⟨rfl, by decide⟩

/-- A required field whose extraction signalled missing contributes exactly
the one missing issue, counted at its location-plus-alias path. -/
theorem field_missing_errors_countP_one (f : ModelField) (location : String)
    (source : Source)
    (hreq : f.required = true)
    (hmiss : _get_multidict_value f source none = .vNone) :
    ((_validate_value_with_model_field f (_get_multidict_value f source none) []
        [.s location, .s f.alias]).2.countP
      (isMissingAt [.s location, .s f.alias])) = 1 := by
  rw [hmiss]
  unfold _validate_value_with_model_field
  rw [if_pos rfl, if_pos hreq]
  simp [isMissingAt, get_missing_field_error]

/-- A field with a different alias contributes no issue counted at the target
location-plus-alias path. -/
theorem field_errors_countP_zero_of_alias_ne (g : ModelField) (location : String)
    (source : Source) (target : String)
    (hne : g.alias ≠ target) :
    ((_validate_value_with_model_field g (_get_multidict_value g source none) []
        [.s location, .s g.alias]).2.countP
      (isMissingAt [.s location, .s target])) = 0 := by
  rw [List.countP_eq_zero]
  intro e he
  obtain ⟨t, ht⟩ := validate_value_errors_loc g _ [] [.s location, .s g.alias] e he
  have hloc : e.loc ≠ [Seg.s location, Seg.s target] := by
    rw [ht]
    intro hcontra
    simp only [List.cons_append, List.nil_append] at hcontra
    have h2 := (List.cons.inj hcontra).2
    exact hne (Seg.s.inj (List.cons.inj h2).1)
  simp [isMissingAt, hloc]

/-- Issues all located under one location contribute no count at a target path
in a different location. -/
theorem countP_missingAt_zero_of_head (errs : List ErrorItem) (hdr : String)
    (tgt : Loc)
    (hhead : ∀ e ∈ errs, e.loc.head? = some (.s hdr))
    (htgt : tgt.head? ≠ some (Seg.s hdr)) :
    errs.countP (isMissingAt tgt) = 0 := by
  rw [List.countP_eq_zero]
  intro e he
  have h1 := hhead e he
  have hloc : e.loc ≠ tgt := fun hc => htgt (hc ▸ h1)
  simp [isMissingAt, hloc]

/-- In the per-location loop, a required field absent from the source mapping
yields exactly one missing issue at its location-plus-alias path, provided the
declared aliases in that location are distinct. -/
theorem request_params_missing_countP_one (fields : List ModelField)
    (location : String) (source : Source) (f : ModelField)
    (hf : f ∈ fields)
    (hnodup : (fields.map ModelField.alias).Nodup)
    (hreq : f.required = true)
    (hmiss : _get_multidict_value f source none = .vNone) :
    ((request_params_to_args fields location source).2.countP
      (isMissingAt [.s location, .s f.alias])) = 1 := by
  rw [request_params_to_args_errors_flatten]
  induction fields with
  | nil => cases hf
  | cons g gs ih =>
    simp only [List.map_cons, List.flatten_cons, List.countP_append]
    rw [List.map_cons, List.nodup_cons] at hnodup
    rcases List.mem_cons.mp hf with rfl | hfgs
    · rw [field_missing_errors_countP_one f location source hreq hmiss]
      have hzero :
          ((gs.map (fun f' =>
            (_validate_value_with_model_field f' (_get_multidict_value f' source none) []
              [Seg.s location, Seg.s f'.alias]).2)).flatten.countP
            (isMissingAt [Seg.s location, Seg.s f.alias])) = 0 := by
        rw [List.countP_eq_zero]
        intro e he
        simp only [List.mem_flatten, List.mem_map] at he
        obtain ⟨l, ⟨g', hg', rfl⟩, hel⟩ := he
        obtain ⟨t, ht⟩ := validate_value_errors_loc g' _ [] _ e hel
        have hne : g'.alias ≠ f.alias := fun hc =>
          hnodup.1 (hc ▸ List.mem_map_of_mem ModelField.alias hg')
        have hloc : e.loc ≠ [Seg.s location, Seg.s f.alias] := by
          rw [ht]
          intro hcontra
          simp only [List.cons_append, List.nil_append] at hcontra
          exact hne (Seg.s.inj (List.cons.inj (List.cons.inj hcontra).2).1)
        simp [isMissingAt, hloc]
      rw [hzero]
    · have hga : g.alias ≠ f.alias := fun hc => by
        have : f.alias ∈ gs.map ModelField.alias := List.mem_map_of_mem ModelField.alias hfgs
        exact hnodup.1 (hc ▸ this)
      rw [field_errors_countP_zero_of_alias_ne g location source f.alias hga]
      rw [ih hfgs hnodup.2]

/-- The issue list one field contributes inside the body field loop. -/
def bodyFieldErrs (body : Value) (f : ModelField) : List ErrorItem :=
  match body with
  | .vNone => (_validate_value_with_model_field f .vNone [] [.s "body", .s f.alias]).2
  | .vDict d =>
      (_validate_value_with_model_field f ((assocGet d f.alias).getD .vNone) []
        [.s "body", .s f.alias]).2
  | _ => [get_missing_field_error [.s "body", .s f.alias]]

/-- The body field loop's issue list is the concatenation of the per-field
issue lists in declaration order. -/
theorem bodyFieldLoop_errors_flatten (fields : List ModelField) (body : Value) :
    (bodyFieldLoop fields body).2 = (fields.map (bodyFieldErrs body)).flatten := by
  induction fields with
  | nil => rfl
  | cons f fs ih =>
    simp only [List.map_cons, List.flatten_cons]
    rcases body with _ | s | n | xs | d
    · simp only [bodyFieldLoop, bodyFieldErrs]
      cases herr : (_validate_value_with_model_field f .vNone [] [.s "body", .s f.alias]).2 with
      | nil => simpa using ih
      | cons e es => simp [ih]
    · simp [bodyFieldLoop, bodyFieldErrs, ih]
    · simp [bodyFieldLoop, bodyFieldErrs, ih]
    · simp [bodyFieldLoop, bodyFieldErrs, ih]
    · simp only [bodyFieldLoop, bodyFieldErrs]
      cases herr : (_validate_value_with_model_field f ((assocGet d f.alias).getD .vNone)
          [] [.s "body", .s f.alias]).2 with
      | nil => simpa using ih
      | cons e es => simp [ih]

/-- Every issue a field contributes in the body loop is located at the field's
body-plus-alias path, possibly extended. -/
theorem bodyFieldErrs_loc (body : Value) (f : ModelField) :
    ∀ e ∈ bodyFieldErrs body f, ∃ t, e.loc = [Seg.s "body", Seg.s f.alias] ++ t := by
  intro e he
  rcases body with _ | s | n | xs | d
  · exact validate_value_errors_loc f .vNone [] _ e he
  · simp only [bodyFieldErrs, List.mem_singleton] at he
    exact ⟨[], by simp [he, get_missing_field_error]⟩
  · simp only [bodyFieldErrs, List.mem_singleton] at he
    exact ⟨[], by simp [he, get_missing_field_error]⟩
  · simp only [bodyFieldErrs, List.mem_singleton] at he
    exact ⟨[], by simp [he, get_missing_field_error]⟩
  · exact validate_value_errors_loc f ((assocGet d f.alias).getD .vNone) [] _ e he

/-- A required body field absent from the parsed body (no body at all, or a
dict without the field's alias) contributes exactly the one missing issue. -/
theorem bodyFieldErrs_missing (body : Value) (f : ModelField)
    (hreq : f.required = true)
    (habs : body = .vNone ∨ ∃ d, body = .vDict d ∧ assocGet d f.alias = none) :
    bodyFieldErrs body f = [get_missing_field_error [.s "body", .s f.alias]] := by
  rcases habs with rfl | ⟨d, rfl, hd⟩
  · simp [bodyFieldErrs, _validate_value_with_model_field, hreq]
  · simp [bodyFieldErrs, hd, _validate_value_with_model_field, hreq]

/-- In the body field loop, a required field absent from the parsed body
yields exactly one missing issue at its body-plus-alias path, provided the
declared body aliases are distinct. -/
theorem bodyFieldLoop_missing_countP_one (fields : List ModelField) (body : Value)
    (f : ModelField)
    (hf : f ∈ fields)
    (hnodup : (fields.map ModelField.alias).Nodup)
    (hreq : f.required = true)
    (habs : body = .vNone ∨ ∃ d, body = .vDict d ∧ assocGet d f.alias = none) :
    ((bodyFieldLoop fields body).2.countP
      (isMissingAt [.s "body", .s f.alias])) = 1 := by
  rw [bodyFieldLoop_errors_flatten]
  induction fields with
  | nil => cases hf
  | cons g gs ih =>
    simp only [List.map_cons, List.flatten_cons, List.countP_append]
    rw [List.map_cons, List.nodup_cons] at hnodup
    rcases List.mem_cons.mp hf with rfl | hfgs
    · rw [bodyFieldErrs_missing body f hreq habs]
      have hone : ([get_missing_field_error [Seg.s "body", Seg.s f.alias]].countP
          (isMissingAt [Seg.s "body", Seg.s f.alias])) = 1 := by
        simp [isMissingAt, get_missing_field_error]
      rw [hone]
      have hzero : ((gs.map (bodyFieldErrs body)).flatten.countP
          (isMissingAt [Seg.s "body", Seg.s f.alias])) = 0 := by
        rw [List.countP_eq_zero]
        intro e he
        simp only [List.mem_flatten, List.mem_map] at he
        obtain ⟨l, ⟨g', hg', rfl⟩, hel⟩ := he
        obtain ⟨t, ht⟩ := bodyFieldErrs_loc body g' e hel
        have hne : g'.alias ≠ f.alias := fun hc =>
          hnodup.1 (hc ▸ List.mem_map_of_mem ModelField.alias hg')
        have hloc : e.loc ≠ [Seg.s "body", Seg.s f.alias] := by
          rw [ht]
          intro hcontra
          simp only [List.cons_append, List.nil_append] at hcontra
          exact hne (Seg.s.inj (List.cons.inj (List.cons.inj hcontra).2).1)
        simp [isMissingAt, hloc]
      rw [hzero]
    · have hga : g.alias ≠ f.alias := fun hc => by
        have : f.alias ∈ gs.map ModelField.alias := List.mem_map_of_mem ModelField.alias hfgs
        exact hnodup.1 (hc ▸ this)
      have hzero : ((bodyFieldErrs body g).countP
          (isMissingAt [Seg.s "body", Seg.s f.alias])) = 0 := by
        rw [List.countP_eq_zero]
        intro e he
        obtain ⟨t, ht⟩ := bodyFieldErrs_loc body g e he
        have hloc : e.loc ≠ [Seg.s "body", Seg.s f.alias] := by
          rw [ht]
          intro hcontra
          simp only [List.cons_append, List.nil_append] at hcontra
          exact hga (Seg.s.inj (List.cons.inj (List.cons.inj hcontra).2).1)
        simp [isMissingAt, hloc]
      rw [hzero, ih hfgs hnodup.2]

/-- C1 amended: for every required field absent from its source mapping, the
aggregate request-validation error contains exactly one issue of kind
`missing` whose location path is the field's location plus its alias — for
query fields, header fields, and embedded body fields (with distinct aliases
declared within the location); a single non-embedded body parameter's missing
issue is instead located at `("body",)` alone. Whenever the aggregate issue
list is nonempty the handler function is never invoked: dispatch is
independent of the endpoint. -/
theorem missing_required_field_exactly_one_issue (route : RouteCfg)
    (eh : ExcHandlers) (dep : Dependant)
    (queryPairs headerPairs : List (String × String)) (body : Value)
    (embedBodyFields : Bool) (f : ModelField) :
    (f ∈ dep.queryParams → (dep.queryParams.map ModelField.alias).Nodup →
        f.required = true →
        _get_multidict_value f (.multi ⟨queryPairs⟩) none = .vNone →
        ((parse_and_validate_request dep queryPairs headerPairs body
            embedBodyFields).errors.countP
          (isMissingAt [.s "query", .s f.alias])) = 1)
    ∧ (f ∈ dep.headerParams → (dep.headerParams.map ModelField.alias).Nodup →
        f.required = true →
        _get_multidict_value f
            (.single ((combineHeaders headerPairs).map (fun p => (p.1, Value.vStr p.2))))
            none = .vNone →
        ((parse_and_validate_request dep queryPairs headerPairs body
            embedBodyFields).errors.countP
          (isMissingAt [.s "header", .s f.alias])) = 1)
    ∧ (embedBodyFields = true → f ∈ dep.bodyParams →
        (dep.bodyParams.map ModelField.alias).Nodup → f.required = true →
        (body = .vNone ∨ ∃ d, body = .vDict d ∧ assocGet d f.alias = none) →
        ((parse_and_validate_request dep queryPairs headerPairs body
            embedBodyFields).errors.countP
          (isMissingAt [.s "body", .s f.alias])) = 1)
    ∧ ((parse_and_validate_request dep queryPairs headerPairs body
          embedBodyFields).errors ≠ [] →
        ∀ ep1 ep2,
          handleRequest route eh dep queryPairs headerPairs (.parsed body)
              embedBodyFields ep1
            = handleRequest route eh dep queryPairs headerPairs (.parsed body)
                embedBodyFields ep2) := by
  have hdecomp := (aggregate_error_accumulation_and_order dep queryPairs headerPairs body
    embedBodyFields).1
  refine ⟨?_, ?_, ?_, ?_⟩
  · intro hf hnodup hreq hmiss
    rw [hdecomp, List.countP_append, List.countP_append]
    rw [request_params_missing_countP_one dep.queryParams "query" _ f hf hnodup hreq hmiss]
    have hbody0 : ((if dep.bodyParams.isEmpty then []
        else (request_body_to_args dep.bodyParams body embedBodyFields).2).countP
          (isMissingAt [.s "query", .s f.alias])) = 0 := by
      by_cases hb : dep.bodyParams.isEmpty = true
      · simp [hb]
      · rw [if_neg (by simp [hb])]
        exact countP_missingAt_zero_of_head _ "body" _
          (request_body_to_args_errors_head _ _ _) (by simp)
    have hheader0 := countP_missingAt_zero_of_head
      (request_params_to_args dep.headerParams "header"
        (.single ((combineHeaders headerPairs).map (fun p => (p.1, Value.vStr p.2))))).2
      "header" [Seg.s "query", Seg.s f.alias]
      (request_params_errors_head _ _ _) (by simp)
    rw [hbody0, hheader0]
  · intro hf hnodup hreq hmiss
    rw [hdecomp, List.countP_append, List.countP_append]
    rw [request_params_missing_countP_one dep.headerParams "header" _ f hf hnodup hreq hmiss]
    have hbody0 : ((if dep.bodyParams.isEmpty then []
        else (request_body_to_args dep.bodyParams body embedBodyFields).2).countP
          (isMissingAt [.s "header", .s f.alias])) = 0 := by
      by_cases hb : dep.bodyParams.isEmpty = true
      · simp [hb]
      · rw [if_neg (by simp [hb])]
        exact countP_missingAt_zero_of_head _ "body" _
          (request_body_to_args_errors_head _ _ _) (by simp)
    have hquery0 := countP_missingAt_zero_of_head
      (request_params_to_args dep.queryParams "query" (.multi ⟨queryPairs⟩)).2
      "query" [Seg.s "header", Seg.s f.alias]
      (request_params_errors_head _ _ _) (by simp)
    rw [hbody0, hquery0]
  · intro hembed hf hnodup hreq habs
    subst hembed
    rw [hdecomp, List.countP_append, List.countP_append]
    have hquery0 := countP_missingAt_zero_of_head
      (request_params_to_args dep.queryParams "query" (.multi ⟨queryPairs⟩)).2
      "query" [Seg.s "body", Seg.s f.alias]
      (request_params_errors_head _ _ _) (by simp)
    have hheader0 := countP_missingAt_zero_of_head
      (request_params_to_args dep.headerParams "header"
        (.single ((combineHeaders headerPairs).map (fun p => (p.1, Value.vStr p.2))))).2
      "header" [Seg.s "body", Seg.s f.alias]
      (request_params_errors_head _ _ _) (by simp)
    rw [hquery0, hheader0]
    rcases hbp : dep.bodyParams with _ | ⟨f0, rest⟩
    · rw [hbp] at hf; cases hf
    · have hne : (f0 :: rest).isEmpty = false := rfl
      rw [hbp] at hf hnodup
      have hbodyargs : request_body_to_args (f0 :: rest) body true
          = bodyFieldLoop (f0 :: rest) body := by
        simp [request_body_to_args]
      rw [if_neg (by simp [hne]), hbodyargs]
      rw [bodyFieldLoop_missing_countP_one (f0 :: rest) body f hf hnodup hreq habs]
  · intro hne ep1 ep2
    have hE : (parse_and_validate_request dep queryPairs headerPairs body
        embedBodyFields).errors.isEmpty = false := by
      cases hE' : (parse_and_validate_request dep queryPairs headerPairs body
          embedBodyFields).errors.isEmpty
      · rfl
      · exact absurd (List.isEmpty_iff.mp hE') hne
    simp only [handleRequest, hE, Bool.false_eq_true, if_false]

/-- Witness for the amended C1: one required query field `n`, request with no
query string: exactly one missing issue at `("query", "n")`, and dispatch is
identical for two different endpoints. -/
theorem missing_required_field_witness :
    ((parse_and_validate_request ⟨[⟨"n", none, true, .vNone, .fInt⟩], [], [], []⟩
        [] [] .vNone false).errors.countP (isMissingAt [.s "query", .s "n"])) = 1
    ∧ handleRequest ⟨none, none⟩ defaultExcHandlers
        ⟨[⟨"n", none, true, .vNone, .fInt⟩], [], [], []⟩ [] [] (.parsed .vNone) false
        (fun _ => .value (.vInt 1))
      = handleRequest ⟨none, none⟩ defaultExcHandlers
          ⟨[⟨"n", none, true, .vNone, .fInt⟩], [], [], []⟩ [] [] (.parsed .vNone) false
          (fun _ => .value (.vInt 2)) := by
  have h := missing_required_field_exactly_one_issue ⟨none, none⟩ defaultExcHandlers
    ⟨[⟨"n", none, true, .vNone, .fInt⟩], [], [], []⟩ [] [] .vNone false
    ⟨"n", none, true, .vNone, .fInt⟩
  exact ⟨h.1 (List.mem_singleton_self _) (by simp) rfl rfl,
    h.2.2.2 (by decide) _ _⟩

/-- A heap object for the aliasing model of `copy.deepcopy`: an immutable
scalar payload, a mutable list object holding references to its elements, or
a mutable dict object holding keyed references. -/
inductive HObj where
  | prim (v : Value)
  | nodeList (children : List Nat)
  | nodeDict (entries : List (String × Nat))
  deriving DecidableEq

/-- A heap of Python objects, addressed by position; allocation appends. -/
abbrev Heap := List HObj

/-- The addresses an object refers to directly. -/
def childAddrs : HObj → List Nat
  | .prim _ => []
  | .nodeList cs => cs
  | .nodeDict es => es.map Prod.snd

mutual

/-- Read back the value rooted at an address (fuel-bounded to stay total on
arbitrary heaps). -/
def readV : Nat → Heap → Nat → Option Value
  | 0, _, _ => none
  | g + 1, h, a =>
      match h[a]? with
      | some (.prim v) => some v
      | some (.nodeList cs) =>
          match readVList g h cs with
          | some vs => some (.vList vs)
          | none => none
      | some (.nodeDict es) =>
          match readVPairs g h es with
          | some ps => some (.vDict ps)
          | none => none
      | none => none
termination_by g _ _ => (g, 0)

def readVList : Nat → Heap → List Nat → Option (List Value)
  | _, _, [] => some []
  | g, h, c :: cs =>
      match readV g h c, readVList g h cs with
      | some v, some vs => some (v :: vs)
      | _, _ => none
termination_by g _ cs => (g, cs.length + 1)

def readVPairs : Nat → Heap → List (String × Nat) → Option (List (String × Value))
  | _, _, [] => some []
  | g, h, (k, c) :: es =>
      match readV g h c, readVPairs g h es with
      | some v, some ps => some ((k, v) :: ps)
      | _, _ => none
termination_by g _ es => (g, es.length + 1)

end

mutual

/-- Materialise a fresh object graph for a value: the heap-level semantics of
`copy.deepcopy(field.default)`, which builds a new, disjoint copy of the
default's object graph that reads back equal to it. -/
def alloc : Heap → Value → Heap × Nat
  | h, .vNone => (h ++ [.prim .vNone], h.length)
  | h, .vStr s => (h ++ [.prim (.vStr s)], h.length)
  | h, .vInt n => (h ++ [.prim (.vInt n)], h.length)
  | h, .vList xs =>
      let r := allocList h xs
      (r.1 ++ [.nodeList r.2], r.1.length)
  | h, .vDict d =>
      let r := allocPairs h d
      (r.1 ++ [.nodeDict r.2], r.1.length)

/-- Element allocation for `alloc`, left to right. -/
def allocList : Heap → List Value → Heap × List Nat
  | h, [] => (h, [])
  | h, v :: vs =>
      let r1 := alloc h v
      let r2 := allocList r1.1 vs
      (r2.1, r1.2 :: r2.2)

/-- Entry allocation for `alloc`, left to right. -/
def allocPairs : Heap → List (String × Value) → Heap × List (String × Nat)
  | h, [] => (h, [])
  | h, (k, v) :: ps =>
      let r1 := alloc h v
      let r2 := allocPairs r1.1 ps
      (r2.1, (k, r1.2) :: r2.2)

end

mutual

/-- Nesting depth of a value: enough read fuel for a faithful copy. -/
def vdepth : Value → Nat
  | .vNone => 1
  | .vStr _ => 1
  | .vInt _ => 1
  | .vList xs => vdepthList xs + 1
  | .vDict d => vdepthPairs d + 1

def vdepthList : List Value → Nat
  | [] => 0
  | v :: vs => max (vdepth v) (vdepthList vs)

def vdepthPairs : List (String × Value) → Nat
  | [] => 0
  | (_, v) :: ps => max (vdepth v) (vdepthPairs ps)

end

mutual

/-- `copy.deepcopy` reads back structurally equal to its input. -/
theorem deepcopy_eq : ∀ v : Value, deepcopy v = v
  | .vNone => rfl
  | .vStr _ => rfl
  | .vInt _ => rfl
  | .vList xs => by rw [deepcopy, deepcopyList_eq xs]
  | .vDict d => by rw [deepcopy, deepcopyPairs_eq d]

theorem deepcopyList_eq : ∀ vs : List Value, deepcopyList vs = vs
  | [] => rfl
  | v :: vs => by rw [deepcopyList, deepcopy_eq v, deepcopyList_eq vs]

theorem deepcopyPairs_eq : ∀ ps : List (String × Value), deepcopyPairs ps = ps
  | [] => rfl
  | (k, v) :: ps => by rw [deepcopyPairs, deepcopy_eq v, deepcopyPairs_eq ps]

end

mutual

/-- Allocation only appends to the heap. -/
theorem alloc_extends : ∀ (h : Heap) (v : Value), ∃ ext, (alloc h v).1 = h ++ ext
  | h, .vNone => ⟨[.prim .vNone], rfl⟩
  | h, .vStr s => ⟨[.prim (.vStr s)], rfl⟩
  | h, .vInt n => ⟨[.prim (.vInt n)], rfl⟩
  | h, .vList xs => by
      obtain ⟨e, he⟩ := allocList_extends h xs
      exact ⟨e ++ [.nodeList (allocList h xs).2], by simp [alloc, he]⟩
  | h, .vDict d => by
      obtain ⟨e, he⟩ := allocPairs_extends h d
      exact ⟨e ++ [.nodeDict (allocPairs h d).2], by simp [alloc, he]⟩

theorem allocList_extends : ∀ (h : Heap) (vs : List Value),
    ∃ ext, (allocList h vs).1 = h ++ ext
  | h, [] => ⟨[], by simp [allocList]⟩
  | h, v :: vs => by
      obtain ⟨e1, he1⟩ := alloc_extends h v
      obtain ⟨e2, he2⟩ := allocList_extends (alloc h v).1 vs
      exact ⟨e1 ++ e2, by simp only [allocList]; rw [he2, he1, List.append_assoc]⟩

theorem allocPairs_extends : ∀ (h : Heap) (ps : List (String × Value)),
    ∃ ext, (allocPairs h ps).1 = h ++ ext
  | h, [] => ⟨[], by simp [allocPairs]⟩
  | h, (k, v) :: ps => by
      obtain ⟨e1, he1⟩ := alloc_extends h v
      obtain ⟨e2, he2⟩ := allocPairs_extends (alloc h v).1 ps
      exact ⟨e1 ++ e2, by simp only [allocPairs]; rw [he2, he1, List.append_assoc]⟩

end

theorem alloc_length_le (h : Heap) (v : Value) : h.length ≤ (alloc h v).1.length := by
  obtain ⟨e, he⟩ := alloc_extends h v
  simp [he]

theorem allocList_length_le (h : Heap) (vs : List Value) :
    h.length ≤ (allocList h vs).1.length := by
  obtain ⟨e, he⟩ := allocList_extends h vs
  simp [he]

theorem allocPairs_length_le (h : Heap) (ps : List (String × Value)) :
    h.length ≤ (allocPairs h ps).1.length := by
  obtain ⟨e, he⟩ := allocPairs_extends h ps
  simp [he]

theorem readV_zero (h : Heap) (a : Nat) : readV 0 h a = none := by rw [readV]

theorem readV_none (g : Nat) (h : Heap) (a : Nat) (hobj : h[a]? = none) :
    readV (g + 1) h a = none := by rw [readV, hobj]

theorem readV_prim (g : Nat) (h : Heap) (a : Nat) (v : Value)
    (hobj : h[a]? = some (.prim v)) : readV (g + 1) h a = some v := by
  rw [readV, hobj]

theorem readV_nodeList (g : Nat) (h : Heap) (a : Nat) (cs : List Nat)
    (hobj : h[a]? = some (.nodeList cs)) :
    readV (g + 1) h a
      = (match readVList g h cs with
         | some vs => some (.vList vs)
         | none => none) := by
  rw [readV, hobj]

theorem readV_nodeDict (g : Nat) (h : Heap) (a : Nat) (es : List (String × Nat))
    (hobj : h[a]? = some (.nodeDict es)) :
    readV (g + 1) h a
      = (match readVPairs g h es with
         | some ps => some (.vDict ps)
         | none => none) := by
  rw [readV, hobj]

theorem readVList_nil (g : Nat) (h : Heap) : readVList g h [] = some [] := by
  rw [readVList]

theorem readVList_cons (g : Nat) (h : Heap) (c : Nat) (cs : List Nat) :
    readVList g h (c :: cs)
      = (match readV g h c, readVList g h cs with
         | some v, some vs => some (v :: vs)
         | _, _ => none) := by
  rw [readVList]

theorem readVPairs_nil (g : Nat) (h : Heap) : readVPairs g h [] = some [] := by
  rw [readVPairs]

theorem readVPairs_cons (g : Nat) (h : Heap) (k : String) (c : Nat)
    (es : List (String × Nat)) :
    readVPairs g h ((k, c) :: es)
      = (match readV g h c, readVPairs g h es with
         | some v, some ps => some ((k, v) :: ps)
         | _, _ => none) := by
  rw [readVPairs]

mutual

/-- A successful read only depends on the heap entries below the heap's
length: any heap agreeing there reads the same value. -/
theorem readV_agree : ∀ (g : Nat) (h h₂ : Heap) (a : Nat) (v : Value),
    (∀ i, i < h.length → h₂[i]? = h[i]?) → readV g h a = some v →
    readV g h₂ a = some v
  | 0, h, _, a, _, _, hr => by rw [readV_zero h a] at hr; exact absurd hr (by simp)
  | g + 1, h, h₂, a, v, hagree, hr => by
      cases hobj : h[a]? with
      | none => rw [readV_none g h a hobj] at hr; exact absurd hr (by simp)
      | some o =>
        have ha : a < h.length := by
          rcases List.getElem?_eq_some.mp hobj with ⟨hlt, -⟩
          exact hlt
        have hobj2 : h₂[a]? = some o := by rw [hagree a ha, hobj]
        cases o with
        | prim w =>
            rw [readV_prim g h a w hobj] at hr
            rw [readV_prim g h₂ a w hobj2]
            exact hr
        | nodeList cs =>
            rw [readV_nodeList g h a cs hobj] at hr
            rw [readV_nodeList g h₂ a cs hobj2]
            cases hcs : readVList g h cs with
            | none => rw [hcs] at hr; exact absurd hr (by simp)
            | some vs =>
                rw [hcs] at hr
                rw [readVList_agree g h h₂ cs vs hagree hcs]
                exact hr
        | nodeDict es =>
            rw [readV_nodeDict g h a es hobj] at hr
            rw [readV_nodeDict g h₂ a es hobj2]
            cases hes : readVPairs g h es with
            | none => rw [hes] at hr; exact absurd hr (by simp)
            | some ps =>
                rw [hes] at hr
                rw [readVPairs_agree g h h₂ es ps hagree hes]
                exact hr
termination_by g _ _ _ _ => (g, 0)

theorem readVList_agree : ∀ (g : Nat) (h h₂ : Heap) (cs : List Nat) (vs : List Value),
    (∀ i, i < h.length → h₂[i]? = h[i]?) → readVList g h cs = some vs →
    readVList g h₂ cs = some vs
  | g, h, h₂, [], vs, _, hr => by
      rw [readVList_nil] at hr
      rw [readVList_nil]
      exact hr
  | g, h, h₂, c :: cs, vs, hagree, hr => by
      rw [readVList_cons] at hr
      rw [readVList_cons]
      cases hv : readV g h c with
      | none => rw [hv] at hr; exact absurd hr (by simp)
      | some w =>
        cases hrest : readVList g h cs with
        | none => rw [hv, hrest] at hr; exact absurd hr (by simp)
        | some ws =>
          rw [hv, hrest] at hr
          rw [readV_agree g h h₂ c w hagree hv,
            readVList_agree g h h₂ cs ws hagree hrest]
          exact hr
termination_by g _ _ cs _ => (g, cs.length + 1)

theorem readVPairs_agree : ∀ (g : Nat) (h h₂ : Heap) (es : List (String × Nat))
    (ps : List (String × Value)),
    (∀ i, i < h.length → h₂[i]? = h[i]?) → readVPairs g h es = some ps →
    readVPairs g h₂ es = some ps
  | g, h, h₂, [], ps, _, hr => by
      rw [readVPairs_nil] at hr
      rw [readVPairs_nil]
      exact hr
  | g, h, h₂, (k, c) :: es, ps, hagree, hr => by
      rw [readVPairs_cons] at hr
      rw [readVPairs_cons]
      cases hv : readV g h c with
      | none => rw [hv] at hr; exact absurd hr (by simp)
      | some w =>
        cases hrest : readVPairs g h es with
        | none => rw [hv, hrest] at hr; exact absurd hr (by simp)
        | some ws =>
          rw [hv, hrest] at hr
          rw [readV_agree g h h₂ c w hagree hv,
            readVPairs_agree g h h₂ es ws hagree hrest]
          exact hr
termination_by g _ _ es _ => (g, es.length + 1)

end

theorem getElem?_append_singleton_ge {α : Type} (l : List α) (x : α) (i : Nat)
    (hi : l.length ≤ i) (o : α) (ho : (l ++ [x])[i]? = some o) :
    i = l.length ∧ o = x := by
  rw [List.getElem?_append_right hi] at ho
  rcases hn : i - l.length with _ | n
  · rw [hn] at ho
    simp only [List.getElem?_cons_zero, Option.some.injEq] at ho
    exact ⟨by omega, ho.symm⟩
  · rw [hn] at ho
    simp at ho

mutual

/-- Freshness of an allocated object graph: every object at a fresh address
(at or above the pre-allocation heap length) refers only to fresh addresses,
and the allocated root is fresh. -/
theorem alloc_closed : ∀ (h : Heap) (v : Value),
    (∀ i o, h.length ≤ i → ((alloc h v).1)[i]? = some o →
      ∀ c ∈ childAddrs o, h.length ≤ c)
    ∧ h.length ≤ (alloc h v).2
  | h, .vNone => by
      refine ⟨fun i o hi hio c hc => ?_, Nat.le_refl _⟩
      obtain ⟨-, rfl⟩ := getElem?_append_singleton_ge h (.prim .vNone) i hi o hio
      simp [childAddrs] at hc
  | h, .vStr s => by
      refine ⟨fun i o hi hio c hc => ?_, Nat.le_refl _⟩
      obtain ⟨-, rfl⟩ := getElem?_append_singleton_ge h (.prim (.vStr s)) i hi o hio
      simp [childAddrs] at hc
  | h, .vInt n => by
      refine ⟨fun i o hi hio c hc => ?_, Nat.le_refl _⟩
      obtain ⟨-, rfl⟩ := getElem?_append_singleton_ge h (.prim (.vInt n)) i hi o hio
      simp [childAddrs] at hc
  | h, .vList xs => by
      have ihl := allocList_closed h xs
      refine ⟨fun i o hi hio c hc => ?_, allocList_length_le h xs⟩
      simp only [alloc] at hio
      by_cases hilt : i < (allocList h xs).1.length
      · rw [List.getElem?_append_left hilt] at hio
        exact ihl.1 i o hi hio c hc
      · obtain ⟨-, rfl⟩ := getElem?_append_singleton_ge (allocList h xs).1
          (.nodeList (allocList h xs).2) i (by omega) o hio
        exact ihl.2 c hc
  | h, .vDict d => by
      have ihl := allocPairs_closed h d
      refine ⟨fun i o hi hio c hc => ?_, allocPairs_length_le h d⟩
      simp only [alloc] at hio
      by_cases hilt : i < (allocPairs h d).1.length
      · rw [List.getElem?_append_left hilt] at hio
        exact ihl.1 i o hi hio c hc
      · obtain ⟨-, rfl⟩ := getElem?_append_singleton_ge (allocPairs h d).1
          (.nodeDict (allocPairs h d).2) i (by omega) o hio
        simp only [childAddrs, List.mem_map] at hc
        obtain ⟨⟨k, a⟩, hmem, rfl⟩ := hc
        exact ihl.2 a (List.mem_map_of_mem Prod.snd hmem)

theorem allocList_closed : ∀ (h : Heap) (vs : List Value),
    (∀ i o, h.length ≤ i → ((allocList h vs).1)[i]? = some o →
      ∀ c ∈ childAddrs o, h.length ≤ c)
    ∧ ∀ a ∈ (allocList h vs).2, h.length ≤ a
  | h, [] => by
      refine ⟨fun i o hi hio c hc => ?_, by simp [allocList]⟩
      simp only [allocList] at hio
      have hnone : h[i]? = none := List.getElem?_eq_none hi
      rw [hnone] at hio
      cases hio
  | h, v :: vs => by
      have ih1 := alloc_closed h v
      have ih2 := allocList_closed (alloc h v).1 vs
      have hlen1 : h.length ≤ (alloc h v).1.length := alloc_length_le h v
      obtain ⟨e2, he2⟩ := allocList_extends (alloc h v).1 vs
      constructor
      · intro i o hi hio c hc
        simp only [allocList] at hio
        by_cases hilt : i < (alloc h v).1.length
        · rw [he2, List.getElem?_append_left hilt] at hio
          exact ih1.1 i o hi hio c hc
        · exact Nat.le_trans hlen1 (ih2.1 i o (by omega) hio c hc)
      · intro a ha
        simp only [allocList] at ha
        rcases List.mem_cons.mp ha with rfl | ha2
        · exact ih1.2
        · exact Nat.le_trans hlen1 (ih2.2 a ha2)

theorem allocPairs_closed : ∀ (h : Heap) (ps : List (String × Value)),
    (∀ i o, h.length ≤ i → ((allocPairs h ps).1)[i]? = some o →
      ∀ c ∈ childAddrs o, h.length ≤ c)
    ∧ ∀ a ∈ (allocPairs h ps).2.map Prod.snd, h.length ≤ a
  | h, [] => by
      refine ⟨fun i o hi hio c hc => ?_, by simp [allocPairs]⟩
      simp only [allocPairs] at hio
      have hnone : h[i]? = none := List.getElem?_eq_none hi
      rw [hnone] at hio
      cases hio
  | h, (k, v) :: ps => by
      have ih1 := alloc_closed h v
      have ih2 := allocPairs_closed (alloc h v).1 ps
      have hlen1 : h.length ≤ (alloc h v).1.length := alloc_length_le h v
      obtain ⟨e2, he2⟩ := allocPairs_extends (alloc h v).1 ps
      constructor
      · intro i o hi hio c hc
        simp only [allocPairs] at hio
        by_cases hilt : i < (alloc h v).1.length
        · rw [he2, List.getElem?_append_left hilt] at hio
          exact ih1.1 i o hi hio c hc
        · exact Nat.le_trans hlen1 (ih2.1 i o (by omega) hio c hc)
      · intro a ha
        simp only [allocPairs, List.map_cons] at ha
        rcases List.mem_cons.mp ha with rfl | ha2
        · exact ih1.2
        · exact Nat.le_trans hlen1 (ih2.2 a ha2)

end

theorem alloc_vNone (h : Heap) :
    alloc h .vNone = (h ++ [.prim .vNone], h.length) := by simp only [alloc]

theorem alloc_vStr (h : Heap) (s : String) :
    alloc h (.vStr s) = (h ++ [.prim (.vStr s)], h.length) := by simp only [alloc]

theorem alloc_vInt (h : Heap) (n : Int) :
    alloc h (.vInt n) = (h ++ [.prim (.vInt n)], h.length) := by simp only [alloc]

theorem alloc_vList (h : Heap) (xs : List Value) :
    alloc h (.vList xs)
      = ((allocList h xs).1 ++ [.nodeList (allocList h xs).2],
         (allocList h xs).1.length) := by simp only [alloc]

theorem alloc_vDict (h : Heap) (d : List (String × Value)) :
    alloc h (.vDict d)
      = ((allocPairs h d).1 ++ [.nodeDict (allocPairs h d).2],
         (allocPairs h d).1.length) := by simp only [alloc]

theorem allocList_cons_eq (h : Heap) (v : Value) (vs : List Value) :
    allocList h (v :: vs)
      = ((allocList (alloc h v).1 vs).1,
         (alloc h v).2 :: (allocList (alloc h v).1 vs).2) := by simp only [allocList]

theorem allocPairs_cons_eq (h : Heap) (k : String) (v : Value)
    (ps : List (String × Value)) :
    allocPairs h ((k, v) :: ps)
      = ((allocPairs (alloc h v).1 ps).1,
         (k, (alloc h v).2) :: (allocPairs (alloc h v).1 ps).2) := by
  simp only [allocPairs]

mutual

/-- Reading the allocated root in any heap that agrees with the allocation
result gives back exactly the allocated value: the copy is value-equal. -/
theorem alloc_read : ∀ (h : Heap) (v : Value) (h₂ : Heap) (g : Nat),
    (∀ i, i < (alloc h v).1.length → h₂[i]? = ((alloc h v).1)[i]?) →
    vdepth v ≤ g → readV g h₂ (alloc h v).2 = some v
  | h, .vNone, h₂, g, hagree, hg => by
      rcases g with _ | g'
      · exact absurd hg (by simp [vdepth])
      · rw [alloc_vNone] at hagree ⊢
        have hroot : h₂[h.length]? = some (.prim .vNone) := by
          rw [hagree h.length (by simp)]
          rw [List.getElem?_append_right (Nat.le_refl _)]
          simp
        exact readV_prim g' h₂ h.length .vNone hroot
  | h, .vStr s, h₂, g, hagree, hg => by
      rcases g with _ | g'
      · exact absurd hg (by simp [vdepth])
      · rw [alloc_vStr] at hagree ⊢
        have hroot : h₂[h.length]? = some (.prim (.vStr s)) := by
          rw [hagree h.length (by simp)]
          rw [List.getElem?_append_right (Nat.le_refl _)]
          simp
        exact readV_prim g' h₂ h.length (.vStr s) hroot
  | h, .vInt n, h₂, g, hagree, hg => by
      rcases g with _ | g'
      · exact absurd hg (by simp [vdepth])
      · rw [alloc_vInt] at hagree ⊢
        have hroot : h₂[h.length]? = some (.prim (.vInt n)) := by
          rw [hagree h.length (by simp)]
          rw [List.getElem?_append_right (Nat.le_refl _)]
          simp
        exact readV_prim g' h₂ h.length (.vInt n) hroot
  | h, .vList xs, h₂, g, hagree, hg => by
      rcases g with _ | g'
      · exact absurd hg (by simp [vdepth])
      · rw [alloc_vList] at hagree ⊢
        have hroot : h₂[(allocList h xs).1.length]? = some (.nodeList (allocList h xs).2) := by
          rw [hagree (allocList h xs).1.length (by simp)]
          rw [List.getElem?_append_right (Nat.le_refl _)]
          simp
        rw [readV_nodeList g' h₂ _ _ hroot]
        have hxs : readVList g' h₂ (allocList h xs).2 = some xs := by
          apply allocList_read h xs h₂ g'
          · intro i hi
            rw [hagree i (by simp; omega)]
            rw [List.getElem?_append_left hi]
          · have hd : vdepth (.vList xs) = vdepthList xs + 1 := by simp [vdepth]
            omega
        rw [hxs]
  | h, .vDict d, h₂, g, hagree, hg => by
      rcases g with _ | g'
      · exact absurd hg (by simp [vdepth])
      · rw [alloc_vDict] at hagree ⊢
        have hroot : h₂[(allocPairs h d).1.length]? = some (.nodeDict (allocPairs h d).2) := by
          rw [hagree (allocPairs h d).1.length (by simp)]
          rw [List.getElem?_append_right (Nat.le_refl _)]
          simp
        rw [readV_nodeDict g' h₂ _ _ hroot]
        have hd2 : readVPairs g' h₂ (allocPairs h d).2 = some d := by
          apply allocPairs_read h d h₂ g'
          · intro i hi
            rw [hagree i (by simp; omega)]
            rw [List.getElem?_append_left hi]
          · have hd : vdepth (.vDict d) = vdepthPairs d + 1 := by simp [vdepth]
            omega
        rw [hd2]

theorem allocList_read : ∀ (h : Heap) (vs : List Value) (h₂ : Heap) (g : Nat),
    (∀ i, i < (allocList h vs).1.length → h₂[i]? = ((allocList h vs).1)[i]?) →
    vdepthList vs ≤ g → readVList g h₂ (allocList h vs).2 = some vs
  | h, [], h₂, g, hagree, hg => by
      simp only [allocList]
      exact readVList_nil g h₂
  | h, v :: vs, h₂, g, hagree, hg => by
      simp only [allocList_cons_eq] at hagree ⊢
      have hext2 := allocList_extends (alloc h v).1 vs
      obtain ⟨e2, he2⟩ := hext2
      have hlenv : (alloc h v).1.length ≤ (allocList (alloc h v).1 vs).1.length := by
        rw [he2]; simp
      have hdep : vdepthList (v :: vs) = max (vdepth v) (vdepthList vs) := by
        simp [vdepthList]
      rw [readVList_cons]
      have hv : readV g h₂ (alloc h v).2 = some v := by
        apply alloc_read h v h₂ g
        · intro i hi
          rw [hagree i (by omega)]
          rw [he2, List.getElem?_append_left hi]
        · omega
      have hvs : readVList g h₂ (allocList (alloc h v).1 vs).2 = some vs := by
        apply allocList_read (alloc h v).1 vs h₂ g hagree
        omega
      rw [hv, hvs]

theorem allocPairs_read : ∀ (h : Heap) (ps : List (String × Value)) (h₂ : Heap) (g : Nat),
    (∀ i, i < (allocPairs h ps).1.length → h₂[i]? = ((allocPairs h ps).1)[i]?) →
    vdepthPairs ps ≤ g → readVPairs g h₂ (allocPairs h ps).2 = some ps
  | h, [], h₂, g, hagree, hg => by
      simp only [allocPairs]
      exact readVPairs_nil g h₂
  | h, (k, v) :: ps, h₂, g, hagree, hg => by
      simp only [allocPairs_cons_eq] at hagree ⊢
      have hext2 := allocPairs_extends (alloc h v).1 ps
      obtain ⟨e2, he2⟩ := hext2
      have hlenv : (alloc h v).1.length ≤ (allocPairs (alloc h v).1 ps).1.length := by
        rw [he2]; simp
      have hdep : vdepthPairs ((k, v) :: ps) = max (vdepth v) (vdepthPairs ps) := by
        simp [vdepthPairs]
      rw [readVPairs_cons]
      have hv : readV g h₂ (alloc h v).2 = some v := by
        apply alloc_read h v h₂ g
        · intro i hi
          rw [hagree i (by omega)]
          rw [he2, List.getElem?_append_left hi]
        · omega
      have hps : readVPairs g h₂ (allocPairs (alloc h v).1 ps).2 = some ps := by
        apply allocPairs_read (alloc h v).1 ps h₂ g hagree
        omega
      rw [hv, hps]

end

/-- C8: for every optional field absent from its source mapping, the bound
value equals the field's declared default and is a deep copy of it. At value
level the extracted result is `deepcopy` of the default, which is structurally
equal to the default; at heap level the copy materialised per request
(modelled by `alloc`) reads back equal to the default, its root is fresh, its
object graph is closed under fresh addresses, and mutating any fresh address
(hence any object of the copy) leaves every read of a pre-existing address —
including the stored default observed by any subsequent request binding the
same field — unchanged. -/
theorem optional_missing_binds_deepcopy_of_default (f : ModelField) (src : Source)
    (h : Heap)
    (hreq : f.required = false)
    (habs : sourceGetRaw f src f.alias = .vNone
      ∨ (is_sequence_field f = true ∧ pyLen (sourceGetRaw f src f.alias) = some 0)) :
    _get_multidict_value f src none = deepcopy f.default
    ∧ deepcopy f.default = f.default
    ∧ readV (vdepth f.default) (alloc h f.default).1 (alloc h f.default).2
        = some f.default
    ∧ h.length ≤ (alloc h f.default).2
    ∧ (∀ i o, h.length ≤ i → ((alloc h f.default).1)[i]? = some o →
        ∀ c ∈ childAddrs o, h.length ≤ c)
    ∧ (∀ g m o a w, h.length ≤ m → readV g h a = some w →
        readV g (((alloc h f.default).1).set m o) a = some w) := by
  refine ⟨?_, deepcopy_eq f.default, ?_, (alloc_closed h f.default).2,
    (alloc_closed h f.default).1, ?_⟩
  · simp only [_get_multidict_value, Option.getD_none]
    rw [if_pos habs, if_neg (by simp [hreq])]
  · exact alloc_read h f.default (alloc h f.default).1 (vdepth f.default)
      (fun i hi => rfl) (Nat.le_refl _)
  · intro g m o a w hm hr
    apply readV_agree g h _ a w _ hr
    intro i hi
    rw [List.getElem?_set_ne (by omega)]
    obtain ⟨ext, hext⟩ := alloc_extends h f.default
    rw [hext, List.getElem?_append_left hi]

/-- Witness for C8: an optional `List[str]` field with default `["x"]` absent
from an empty query multidict binds the deep copy of the default; allocating
the copy in a one-object heap reads back the default, and mutating the fresh
region leaves the pre-existing object's read unchanged. -/
theorem optional_missing_binds_deepcopy_witness :
    _get_multidict_value ⟨"tags", none, false, .vList [.vStr "x"], .fListStr⟩
        (.multi ⟨[]⟩) none
      = deepcopy (Value.vList [.vStr "x"])
    ∧ deepcopy (Value.vList [.vStr "x"]) = Value.vList [.vStr "x"]
    ∧ readV (vdepth (Value.vList [.vStr "x"]))
        (alloc [HObj.prim (.vInt 7)] (.vList [.vStr "x"])).1
        (alloc [HObj.prim (.vInt 7)] (.vList [.vStr "x"])).2
      = some (Value.vList [.vStr "x"])
    ∧ readV 2 ((alloc [HObj.prim (.vInt 7)] (.vList [.vStr "x"])).1.set 1 (.prim .vNone)) 0
      = some (Value.vInt 7) := by
  have hmain := optional_missing_binds_deepcopy_of_default
    ⟨"tags", none, false, .vList [.vStr "x"], .fListStr⟩ (.multi ⟨[]⟩)
    [HObj.prim (.vInt 7)] rfl (Or.inr ⟨rfl, rfl⟩)
  refine ⟨hmain.1, hmain.2.1, hmain.2.2.1, ?_⟩
  exact hmain.2.2.2.2.2 2 1 (.prim .vNone) 0 (.vInt 7) (Nat.le_refl 1)
    (readV_prim 1 [HObj.prim (.vInt 7)] 0 (.vInt 7) rfl)
